import Mathlib

/-!
Verification of the Postgres persistence layer (`crates/postgres/src/lib.rs`).

The SQL tables, statements and the pure control flow of the reader and writer
are shallowly embedded: `BYTEA` values are lists of naturals, `BIGINT` values
are integers, tables are row lists or finite maps, and each SQL template is
translated into the list transformation it denotes.  Types that live in the
`common` crate (index keys, intervals, scan order, internal ids) are not part
of the source tree; where one is needed its definition is modelled from the
specification and marked as such.
-/

/-- Byte strings stored in `BYTEA` columns, modelled as lists of naturals. -/
abbrev Bytes : Type := List Nat

/-- Lexicographic strict order on byte strings: the order Postgres uses to
compare `BYTEA` values and Rust uses for `Vec<u8>::cmp`. -/
def bytesLt : Bytes → Bytes → Bool
  | [], [] => false
  | [], _ :: _ => true
  | _ :: _, [] => false
  | a :: as, b :: bs => if a < b then true else if b < a then false else bytesLt as bs

/-- The scan order requested by a caller (`common::query::Order`). -/
inductive Order where
  | asc
  | desc
deriving DecidableEq, Repr

/-- Modelled from the spec (§4.5): `Order::apply` keeps an ascending sequence
as is and reverses it for a descending scan. -/
def Order.apply (o : Order) (l : List α) : List α :=
  match o with
  | Order.asc => l
  | Order.desc => l.reverse

/-- Strict byte order in the direction of a scan order. -/
def ordBytesLt (o : Order) (a b : Bytes) : Bool :=
  match o with
  | Order.asc => bytesLt a b
  | Order.desc => bytesLt b a

/-! ### The lease (`Lease::acquire`, `Lease::transact`, src lines 1469–1580)

The `leases` table holds the singleton row `id = 1` inserted at schema
initialization (`INSERT INTO leases (id, ts) VALUES (1, 0) ON CONFLICT DO
NOTHING`); only its `ts` column ever changes, so the table is modelled by
that one value. -/

/-- The singleton lease row (`id = 1`) of the `leases` table. -/
structure LeasesTable where
  ts : Int
deriving DecidableEq, Repr

/-- Embeds `LEASE_ACQUIRE` (line 2057): `UPDATE leases SET ts=$1 WHERE id=1 AND
ts<$1`. Returns the table after the update and the number of rows modified. -/
def leaseAcquireUpdate (t : LeasesTable) (cand : Int) : LeasesTable × Nat :=
  if t.ts < cand then ({ ts := cand }, 1) else (t, 0)

/-- Embeds `Lease::acquire` (lines 1479–1510): `cand` is the wall-clock
nanosecond candidate timestamp; the acquire succeeds returning the new lease
timestamp exactly when one row was modified, and otherwise fails. -/
def leaseAcquire (t : LeasesTable) (cand : Int) : LeasesTable × Except String Int :=
  let u := leaseAcquireUpdate t cand
  ( u.1
  , if u.2 = 1 then Except.ok cand
    else Except.error "failed to acquire lease: Already acquired with higher timestamp" )

/-- Embeds `ADVISORY_LEASE_CHECK` and `LEASE_PRECOND` (lines 2051–2054):
`SELECT 1 FROM leases WHERE id=1 AND ts=$1` returns one row when the singleton
lease row's `ts` equals the bound parameter, else zero rows. -/
def leaseCheckRows (t : LeasesTable) (leaseTs : Int) : Nat :=
  if t.ts = leaseTs then 1 else 0

/-- How a `Lease::transact` call ends. -/
inductive TransactError where
  | leaseLost
  | functionFailed (msg : String)
deriving DecidableEq, Repr

/-- Outcome of one `Lease::transact` call: whether the transaction committed,
whether the shutdown hook was signalled, and the returned result. -/
structure TransactOutcome (T : Type) where
  committed : Bool
  shutdownSignaled : Bool
  result : Except TransactError T

/-- Embeds `Lease::transact` (lines 1520–1579).  The advisory check and the
user function run under `future::try_join`, which polls the advisory check
first; the model sequentializes that join, taking the lease-table state seen
by the advisory check, the user function's result, and the lease-table state
seen by the `FOR SHARE` precondition check as inputs.  The shutdown hook
(modelled from the spec's Shutdown Signal interface as a boolean flag) is
signalled exactly where the source calls `lease_lost_shutdown.signal`. -/
def leaseTransact {T : Type} (leaseTs : Int) (tableAtAdvisory : LeasesTable)
    (fResult : Except String T) (tableAtPrecond : LeasesTable) : TransactOutcome T :=
  if leaseCheckRows tableAtAdvisory leaseTs ≠ 1 then
    { committed := false, shutdownSignaled := true
      result := Except.error TransactError.leaseLost }
  else
    match fResult with
    | Except.error e =>
        { committed := false, shutdownSignaled := false
          result := Except.error (TransactError.functionFailed e) }
    | Except.ok v =>
        if leaseCheckRows tableAtPrecond leaseTs ≠ 1 then
          { committed := false, shutdownSignaled := true
            result := Except.error TransactError.leaseLost }
        else
          { committed := true, shutdownSignaled := false, result := Except.ok v }

/-! ### SQL parameters and the index write path (`index_params`, lines 1614–1640) -/

/-- Modelled from the spec (§3): an internal document id pairs a 16-byte
tablet id with a 16-byte internal id (`common::value::InternalDocumentId`). -/
structure InternalDocumentId where
  tableId : Bytes
  internalId : Bytes
deriving DecidableEq, Repr

/-- SQL parameter values (the `Param` enum, lines 1642–1652); the source's
`Param::None` variant is called `null` here. -/
inductive Param where
  | null
  | ts (n : Int)
  | limit (n : Int)
  | tableId (b : Bytes)
  | jsonValue (s : String)
  | deleted (b : Bool)
  | bytes (b : Bytes)
  | persistenceGlobalKey (k : String)
deriving DecidableEq, Repr

/-- Modelled from the spec (§4.1 Split-Key): `MAX_INDEX_KEY_PREFIX_LEN` is
2500 bytes. -/
def maxIndexKeyPfxLen : Nat := 2500

/-- Modelled from the spec (§4.1): a split index key, `key_prefix` (`pfx`)
holding the first 2500 bytes and `key_suffix` (`suffix`) the remainder when
the key is longer. -/
structure SplitKey where
  pfx : Bytes
  suffix : Option Bytes
deriving DecidableEq, Repr

/-- Modelled from the spec (§4.1): `SplitKey::new` splits a key `K` into
`K[..min(len, 2500)]` and `Some(K[2500..])` when `len(K) > 2500`. -/
def SplitKey.new (k : Bytes) : SplitKey :=
  { pfx := k.take maxIndexKeyPfxLen
  , suffix := if maxIndexKeyPfxLen < k.length then some (k.drop maxIndexKeyPfxLen) else none }

/-- Modelled from the spec (§3): a `PersistenceIndexEntry` carries the index
id, the write timestamp, the full logical key, and the written value — the
document id when the entry is live, absent for a tombstone. -/
structure PersistenceIndexEntry where
  indexId : Bytes
  ts : Int
  key : Bytes
  value : Option InternalDocumentId
deriving DecidableEq, Repr

/-- Embeds `index_params` (lines 1614–1640): the eight SQL parameters of an
index row insert, in column order `index_id, ts, key_prefix, key_suffix,
key_sha256, deleted, table_id, document_id`.  The SHA-256 function over the
full key is abstracted as the parameter `sha`. -/
def indexParams (sha : Bytes → Bytes) (u : PersistenceIndexEntry) : List Param :=
  let keySha := sha u.key
  let split := SplitKey.new u.key
  let dtd : Param × Param × Param :=
    match u.value with
    | none => (Param.deleted true, Param.null, Param.null)
    | some docId =>
        (Param.deleted false, Param.tableId docId.tableId, Param.bytes docId.internalId)
  [ Param.bytes u.indexId
  , Param.ts u.ts
  , Param.bytes split.pfx
  , match split.suffix with
    | some s => Param.bytes s
    | none => Param.null
  , Param.bytes keySha
  , dtd.1
  , dtd.2.1
  , dtd.2.2 ]

/-! ### The documents and indexes tables and the overwrite conflict strategy
(`INSERT_OVERWRITE_DOCUMENT` lines 1905–1917, `INSERT_OVERWRITE_INDEX`
lines 1955–1969) -/

/-- Primary key of the `documents` table: `(ts, table_id, id)`. -/
structure DocumentsKey where
  ts : Int
  tableId : Bytes
  id : Bytes
deriving DecidableEq, Repr

/-- Non-key columns of a `documents` row. -/
structure DocumentsData where
  jsonValue : String
  deleted : Bool
  prevTs : Option Int
deriving DecidableEq, Repr

/-- The `documents` table as a finite map from primary key to row data. -/
def DocumentsTable : Type := DocumentsKey → Option DocumentsData

/-- Embeds `INSERT_OVERWRITE_DOCUMENT` (lines 1905–1917): insert a row; `ON
CONFLICT (id, ts, table_id) DO UPDATE SET deleted = excluded.deleted,
json_value = excluded.json_value`. -/
def insertOverwriteDocument (t : DocumentsTable) (k : DocumentsKey) (d : DocumentsData) :
    DocumentsTable :=
  fun k' =>
    if k' = k then
      some (match t k with
        | none => d
        | some old => { old with deleted := d.deleted, jsonValue := d.jsonValue })
    else t k'

/-- Primary key of the `indexes` table: `(index_id, key_sha256, ts)`. -/
structure IndexesKey where
  indexId : Bytes
  keySha256 : Bytes
  ts : Int
deriving DecidableEq, Repr

/-- Non-key columns of an `indexes` row (`key_prefix` is `keyPfx`). -/
structure IndexesData where
  keyPfx : Bytes
  keySuffix : Option Bytes
  deleted : Bool
  tableId : Option Bytes
  documentId : Option Bytes
deriving DecidableEq, Repr

/-- The `indexes` table as a finite map from primary key to row data. -/
def IndexesTable : Type := IndexesKey → Option IndexesData

/-- Embeds `INSERT_OVERWRITE_INDEX` (lines 1955–1969): insert a row; `ON
CONFLICT ON CONSTRAINT indexes_pkey DO UPDATE SET deleted = excluded.deleted,
table_id = excluded.table_id, document_id = excluded.document_id`. -/
def insertOverwriteIndex (t : IndexesTable) (k : IndexesKey) (d : IndexesData) :
    IndexesTable :=
  fun k' =>
    if k' = k then
      some (match t k with
        | none => d
        | some old =>
            { old with deleted := d.deleted, tableId := d.tableId
                       documentId := d.documentId })
    else t k'

/-! ### Freshness flag (`check_newly_created` lines 348–351, `is_fresh` lines
355–357, `write` lines 368–454) -/

/-- The in-memory state of a `PostgresPersistence`: the `newly_created` flag
and the `documents` table contents (as a row list). -/
structure BackendState where
  newlyCreated : Bool
  documents : List (DocumentsKey × DocumentsData)
deriving DecidableEq, Repr

/-- Embeds construction (`with_pool`, lines 231–292): `check_newly_created`
runs `SELECT 1 FROM documents LIMIT 1` and records whether it returned no
row, i.e. whether the documents table was empty. -/
def postgresPersistenceInit (docs : List (DocumentsKey × DocumentsData)) : BackendState :=
  { newlyCreated := docs.isEmpty, documents := docs }

/-- Embeds `Persistence::is_fresh` (lines 355–357). -/
def isFresh (s : BackendState) : Bool := s.newlyCreated

/-- Embeds the freshness-relevant effects of `Persistence::write` (lines
368–454): the source stores `newly_created = false` **before** running the
lease transaction ("True, the below might end up failing and not changing
anything.", line 394); the staged inserts apply only when the transaction
commits (`txCommits`), and a failed transaction leaves the tables unchanged.
Returns the new state and whether the write succeeded. -/
def postgresWrite (s : BackendState) (newRows : List (DocumentsKey × DocumentsData))
    (txCommits : Bool) : BackendState × Bool :=
  let s1 : BackendState := { s with newlyCreated := false }
  if txCommits then ({ s1 with documents := s1.documents ++ newRows }, true)
  else (s1, false)

/-! ### Previous revisions (`PostgresReader::previous_revisions` lines
1217–1295, `PREV_REV` lines 2215–2233) -/

/-- A full `documents` row as the reader sees it. -/
structure DocRow where
  id : Bytes
  tableId : Bytes
  ts : Int
  jsonValue : String
  deleted : Bool
  prevTs : Option Int
deriving DecidableEq, Repr

/-- Embeds the `PREV_REV` template (lines 2215–2233): `SELECT ... FROM
documents WHERE table_id = $1 AND id = $2 AND ts < $3 ORDER BY ts DESC LIMIT
1`. -/
def prevRevQuery (docs : List DocRow) (tableId id : Bytes) (queryTs : Int) : Option DocRow :=
  ((docs.filter fun r => decide (r.tableId = tableId ∧ r.id = id ∧ r.ts < queryTs)).mergeSort
    fun a b => decide (b.ts ≤ a.ts)).head?

/-- Embeds `PostgresReader::previous_revisions` (lines 1217–1295).  The
source splits the query set into chunks of 8 served by `PREV_REV_CHUNK` — an
8-way `UNION ALL` of the `PREV_REV` template — plus a remainder served by
`PREV_REV` itself; every `(id, ts)` pair is thus answered by exactly one
`PREV_REV` subquery, so the model folds over the pairs directly, collecting
into the result map (an association list keyed by `(table_id, id, query_ts)`)
one entry per query that found a row. -/
def previousRevisions (docs : List DocRow) (queries : List (Bytes × Bytes × Int)) :
    List ((Bytes × Bytes × Int) × DocRow) :=
  queries.filterMap fun q => (prevRevQuery docs q.1 q.2.1 q.2.2).map (fun r => (q, r))

/-! ### Intervals, SQL keys and bound translation (`SqlKey`, `to_sql_bounds`
lines 2288–2342; interval and key types modelled from the spec) -/

/-- Modelled from the spec (§4.5): the upper end of a half-open interval —
an excluded key or unbounded (`common::interval::End`). -/
inductive IntervalEnd where
  | excluded (k : Bytes)
  | unbounded
deriving DecidableEq, Repr

/-- Modelled from the spec (§4.5): a half-open logical key interval
`[start, end)` (`common::interval::Interval`, start always included; named `KeyInterval` as Mathlib takes `Interval`). -/
structure KeyInterval where
  startKey : Bytes
  endBound : IntervalEnd
deriving DecidableEq, Repr

/-- Modelled from the spec (§4.5): `Interval::contains` — membership in the
half-open interval `[start, end)` under lexicographic byte order. -/
def intervalContains (iv : KeyInterval) (k : Bytes) : Bool :=
  !(bytesLt k iv.startKey) &&
    (match iv.endBound with
     | IntervalEnd.unbounded => true
     | IntervalEnd.excluded e => bytesLt k e)

/-- The pagination key used in SQL (`SqlKey`, lines 2293–2297): the
`key_prefix` (`pfx`) and `key_sha256` columns. -/
structure SqlKey where
  pfx : Bytes
  sha256 : Bytes
deriving DecidableEq, Repr

/-- `MIN_SHA256` (line 2288): 32 zero bytes. -/
def minSha256 : Bytes := List.replicate 32 0

/-- `MAX_SHA256` (line 2289): 32 bytes of 255. -/
def maxSha256 : Bytes := List.replicate 32 255

/-- Embeds `SqlKey::min_with_same_prefix` (lines 2301–2307). -/
def sqlKeyMinWithSamePfx (k : Bytes) : SqlKey :=
  { pfx := (SplitKey.new k).pfx, sha256 := minSha256 }

/-- Embeds `SqlKey::max_with_same_prefix` (lines 2309–2315). -/
def sqlKeyMaxWithSamePfx (k : Bytes) : SqlKey :=
  { pfx := (SplitKey.new k).pfx, sha256 := maxSha256 }

/-- A bound on `SqlKey` (`std::ops::Bound<SqlKey>`). -/
inductive SqlBound where
  | included (k : SqlKey)
  | excluded (k : SqlKey)
  | unbounded
deriving DecidableEq, Repr

/-- Embeds `to_sql_bounds` (lines 2322–2342): translate a logical interval to
the `(key_prefix, key_sha256)` bounds used by the index scan queries. -/
def toSqlBounds (iv : KeyInterval) : SqlBound × SqlBound :=
  let lower := SqlBound.included (sqlKeyMinWithSamePfx iv.startKey)
  let upper :=
    match iv.endBound with
    | IntervalEnd.excluded k =>
        if k.length < maxIndexKeyPfxLen then SqlBound.excluded (sqlKeyMinWithSamePfx k)
        else SqlBound.included (sqlKeyMaxWithSamePfx k)
    | IntervalEnd.unbounded => SqlBound.unbounded
  (lower, upper)

/-- Strict comparison of `(key_prefix, key_sha256)` pairs: Postgres row
comparison `(key_prefix, key_sha256) < (a, b)` as generated into the
`INDEX_QUERIES` where clauses (lines 2090–2131). -/
def sqlKeyPairLt (a b : SqlKey) : Bool :=
  bytesLt a.pfx b.pfx || (a.pfx == b.pfx && bytesLt a.sha256 b.sha256)

/-- Non-strict comparison of `(key_prefix, key_sha256)` pairs (Postgres row
comparison `<=`). -/
def sqlKeyPairLe (a b : SqlKey) : Bool :=
  bytesLt a.pfx b.pfx || (a.pfx == b.pfx && !(bytesLt b.sha256 a.sha256))

/-- The lower-bound conjunct of an `INDEX_QUERIES` where clause (lines
2090–2110): `(key_prefix, key_sha256) >= / > ($i, $j)` or absent. -/
def sqlLowerSatisfied (lower : SqlBound) (k : SqlKey) : Bool :=
  match lower with
  | SqlBound.unbounded => true
  | SqlBound.included b => sqlKeyPairLe b k
  | SqlBound.excluded b => sqlKeyPairLt b k

/-- The upper-bound conjunct of an `INDEX_QUERIES` where clause (lines
2111–2131): `(key_prefix, key_sha256) <= / < ($i, $j)` or absent. -/
def sqlUpperSatisfied (upper : SqlBound) (k : SqlKey) : Bool :=
  match upper with
  | SqlBound.unbounded => true
  | SqlBound.included b => sqlKeyPairLe k b
  | SqlBound.excluded b => sqlKeyPairLt k b

/-- A `(key_prefix, key_sha256)` pair lies within both SQL bounds. -/
def sqlBoundsContain (bounds : SqlBound × SqlBound) (k : SqlKey) : Bool :=
  sqlLowerSatisfied bounds.1 k && sqlUpperSatisfied bounds.2 k

/-! ### The index scan row loop (`_index_scan_inner`, lines 953–1140)

The SQL pages deliver index rows joined to their documents in `(key_prefix,
key_sha256)` order in the requested direction; the loop reorders rows whose
full key reaches `MAX_INDEX_KEY_PREFIX_LEN` through an in-memory buffer.  The
joined document payload is abstracted as `data : α`. -/

/-- One row fetched by an index scan query, after `parse_row` (lines
1183–1202): the split key columns, the tombstone flag, and the joined
document payload. -/
structure IndexRowFetched (α : Type) where
  keyPfx : Bytes
  keySuffix : Option Bytes
  keySha256 : Bytes
  deleted : Bool
  data : α
deriving DecidableEq, Repr

/-- The full logical key reconstructed from a fetched row (lines 1044–1047):
`key_prefix` extended by `key_suffix` when present. -/
def fetchedFullKey (r : IndexRowFetched α) : Bytes :=
  r.keyPfx ++ r.keySuffix.getD []

/-- The length invariant of a fetched index row: the stored `key_prefix` is
at most 2500 bytes and exactly 2500 when a `key_suffix` is present. -/
def rowLenSpec (r : IndexRowFetched α) : Prop :=
  r.keyPfx.length ≤ maxIndexKeyPfxLen ∧
    (r.keySuffix ≠ none → r.keyPfx.length = maxIndexKeyPfxLen)

/-- An entry held in the reorder buffer or emitted to the caller: the full
key plus the row's payload (the source buffers `(IndexKeyBytes, ts, value,
prev_ts)`; everything but the key is `data` here). -/
structure ScanEntry (α : Type) where
  key : Bytes
  data : α
deriving DecidableEq, Repr

/-- The entries that survive the scan's row loop before ordering: the
non-deleted fetched rows, carried with their reconstructed full keys (used to
state what the loop emits). -/
def keptEntries (rs : List (IndexRowFetched α)) : List (ScanEntry α) :=
  (rs.filter fun r => !r.deleted).map fun r => ScanEntry.mk (fetchedFullKey r) r.data

/-- Embeds a buffer flush (lines 1014–1023 and 1122–1137): stable-sort the
buffered entries by full key ascending (`sort_by(|a, b| a.0.cmp(&b.0))`),
apply the scan order, and post-filter with `interval.contains`. -/
def flushSortFilter (o : Order) (iv : KeyInterval) (buf : List (ScanEntry α)) :
    List (ScanEntry α) :=
  (o.apply (buf.mergeSort fun a b => !(bytesLt b.key a.key))).filter
    fun e => intervalContains iv e.key

/-- Embeds the buffer-flush check at the top of the row loop (lines
1010–1025): when the buffered entries' maximal prefix differs from the
incoming row's `key_prefix`, the buffer is flushed; returns the entries
emitted by the flush and the buffer that remains. -/
def scanFlushStep (o : Order) (iv : KeyInterval) (buf : List (ScanEntry α))
    (r : IndexRowFetched α) : List (ScanEntry α) × List (ScanEntry α) :=
  match buf.head? with
  | some e =>
      if e.key.take maxIndexKeyPfxLen ≠ r.keyPfx then (flushSortFilter o iv buf, [])
      else ([], buf)
  | none => ([], buf)

/-- Embeds the row-processing loop of `_index_scan_inner` (lines 1004–1075)
over a stream of fetched rows, threading the reorder buffer: on each row,
first flush the buffer if its prefix differs from the row's `key_prefix`;
skip deleted rows; emit short keys directly (post-filtering), buffer keys of
maximal-or-longer length.  Returns `(emitted, buffer, asserts)` where
`asserts` records that `assert!(result_buffer.is_empty())` (line 1061) held
at every short-key row. -/
def scanRows (o : Order) (iv : KeyInterval) :
    List (ScanEntry α) → List (IndexRowFetched α) →
      List (ScanEntry α) × List (ScanEntry α) × Bool
  | buf, [] => ([], buf, true)
  | buf, r :: rs =>
    let st := scanFlushStep o iv buf r
    if r.deleted then
      let res := scanRows o iv st.2 rs
      (st.1 ++ res.1, res.2.1, res.2.2)
    else
      let key := fetchedFullKey r
      if key.length < maxIndexKeyPfxLen then
        let res := scanRows o iv st.2 rs
        (st.1 ++ (if intervalContains iv key then [ScanEntry.mk key r.data] else []) ++ res.1,
          res.2.1, st.2.isEmpty && res.2.2)
      else
        let res := scanRows o iv (st.2 ++ [ScanEntry.mk key r.data]) rs
        (st.1 ++ res.1, res.2.1, res.2.2)

/-- Embeds the overall emission of `_index_scan_inner` over the full fetched
row stream (the concatenation of its SQL pages): process every row, then
flush whatever remains buffered (lines 1122–1137). -/
def indexScanEmit (o : Order) (iv : KeyInterval) (rows : List (IndexRowFetched α)) :
    List (ScanEntry α) :=
  let res := scanRows o iv ([] : List (ScanEntry α)) rows
  res.1 ++ flushSortFilter o iv res.2.1

/-! ### Document log pagination (`_load_documents` lines 778–881,
`LOAD_DOCS_BY_TS_PAGE_ASC` / `LOAD_DOCS_BY_TS_PAGE_DESC` lines 1855–1891) -/

/-- The cursor tuple `(ts, table_id, id)` of the document log. -/
abbrev DocCursor : Type := Int × Bytes × Bytes

/-- The cursor tuple of a `documents` row. -/
def docRowKey (r : DocRow) : DocCursor := (r.ts, r.tableId, r.id)

/-- Strict Postgres row comparison `(ts, table_id, id) < (a, b, c)`:
lexicographic on the integer timestamp and the two byte strings. -/
def docKeyLt (a b : DocCursor) : Bool :=
  decide (a.1 < b.1) ||
    (a.1 == b.1 &&
      (bytesLt a.2.1 b.2.1 || (a.2.1 == b.2.1 && bytesLt a.2.2 b.2.2)))

/-- Modelled from the spec (§4.6): the sentinel id `InternalId::AFTER_ALL_BYTES`
compares above every stored id under `BYTEA` order; stored ids are 16 bytes
with values below 256, so 17 bytes of 255 realizes it. -/
def afterAllBytes : Bytes := List.replicate 17 255

/-- Modelled from the spec (§4.6): the sentinel id `InternalId::BEFORE_ALL_BYTES`
compares below every stored id; the empty byte string realizes it. -/
def beforeAllBytes : Bytes := []

/-- A stored id: 16 bytes, each below 256.  Sandwiched strictly between the
two sentinels under `BYTEA` order. -/
abbrev validId (b : Bytes) : Prop := b.length = 16 ∧ ∀ x ∈ b, x ≤ 255

/-- A `documents` row whose `table_id` and `id` columns hold stored ids. -/
abbrev validDocRow (r : DocRow) : Prop := validId r.tableId ∧ validId r.id

/-- Embeds `LOAD_DOCS_BY_TS_PAGE_ASC` (lines 1855–1871): `SELECT ... FROM
documents WHERE (ts, table_id, id) > ($1, $2, $3) AND ts < $4 ORDER BY ts
ASC, table_id ASC, id ASC LIMIT $5`. -/
def loadDocsPageAsc (docs : List DocRow) (cursor : DocCursor) (maxTs : Int)
    (n : Nat) : List DocRow :=
  ((docs.filter fun r => docKeyLt cursor (docRowKey r) && decide (r.ts < maxTs)).mergeSort
    fun a b => !(docKeyLt (docRowKey b) (docRowKey a))).take n

/-- Embeds `LOAD_DOCS_BY_TS_PAGE_DESC` (lines 1875–1891): `SELECT ... FROM
documents WHERE ts >= $1 AND (ts, table_id, id) < ($2, $3, $4) ORDER BY ts
DESC, table_id DESC, id DESC LIMIT $5`. -/
def loadDocsPageDesc (docs : List DocRow) (minTs : Int) (cursor : DocCursor)
    (n : Nat) : List DocRow :=
  ((docs.filter fun r => decide (minTs ≤ r.ts) && docKeyLt (docRowKey r) cursor).mergeSort
    fun a b => !(docKeyLt (docRowKey a) (docRowKey b))).take n

/-- Embeds the ascending page loop of `_load_documents` (lines 806–878): each
iteration requests exactly `n` rows past the exclusive cursor, advances the
cursor to the last row fetched, and stops when a page comes back short.  The
`fuel` argument bounds the iteration count (the source loops unboundedly; any
fuel above the number of pages produces the loop's full output). -/
def loadDocsLoopAsc (docs : List DocRow) (maxTs : Int) (n : Nat) :
    Nat → DocCursor → List DocRow
  | 0, _ => []
  | fuel + 1, cursor =>
    let page := loadDocsPageAsc docs cursor maxTs n
    if page.length < n then page
    else
      match page.getLast? with
      | none => page
      | some last => page ++ loadDocsLoopAsc docs maxTs n fuel (docRowKey last)

/-- Embeds the descending page loop of `_load_documents`, symmetric to
`loadDocsLoopAsc`. -/
def loadDocsLoopDesc (docs : List DocRow) (minTs : Int) (n : Nat) :
    Nat → DocCursor → List DocRow
  | 0, _ => []
  | fuel + 1, cursor =>
    let page := loadDocsPageDesc docs minTs cursor n
    if page.length < n then page
    else
      match page.getLast? with
      | none => page
      | some last => page ++ loadDocsLoopDesc docs minTs n fuel (docRowKey last)

/-- Embeds `_load_documents` in ascending order (lines 789–798): the initial
exclusive cursor is `(min_timestamp_inclusive − 1, AFTER_ALL_BYTES,
AFTER_ALL_BYTES)`. -/
def loadDocumentsAsc (docs : List DocRow) (minTs maxTs : Int) (n : Nat) : List DocRow :=
  loadDocsLoopAsc docs maxTs n (docs.length + 1) (minTs - 1, afterAllBytes, afterAllBytes)

/-- Embeds `_load_documents` in descending order (lines 799–804): the initial
exclusive cursor is `(max_timestamp_exclusive, BEFORE_ALL_BYTES,
BEFORE_ALL_BYTES)`. -/
def loadDocumentsDesc (docs : List DocRow) (minTs maxTs : Int) (n : Nat) : List DocRow :=
  loadDocsLoopDesc docs minTs n (docs.length + 1) (maxTs, beforeAllBytes, beforeAllBytes)

/-! ### Event traces of the two streaming reads (`_load_documents` lines
806–878, `_index_scan_inner` lines 974–1139)

For the temporal claims the per-page control flow is embedded as an event
trace: fetching a page, releasing the connection back to the pool
(`drop(client)`), the retention-validator call (modelled from the spec's
Retention Validator interface: `ok i` says whether validation of the `i`-th
page's snapshot succeeds), yielding a row, and erroring out. -/

/-- One observable event of a streaming read. -/
inductive ScanEvent (ρ : Type) where
  | fetchPage (i : Nat)
  | releaseConn (i : Nat)
  | validateSnapshot (i : Nat) (ok : Bool)
  | yieldRow (i : Nat) (r : ρ)
  | streamError
deriving DecidableEq, Repr

/-- Embeds the per-page control flow of `_load_documents` (lines 806–878):
fetch the `i`-th page, drop the client, call
`retention_validator.validate_document_snapshot`, and only then yield the
page's rows; a failed validation aborts the stream with an error, a short
page ends it.  Page contents are abstract (`pages` lists the successive query
results). -/
def loadDocumentsTrace (pageSize : Nat) (ok : Nat → Bool) :
    Nat → List (List ρ) → List (ScanEvent ρ)
  | _, [] => []
  | i, page :: rest =>
    ScanEvent.fetchPage i :: ScanEvent.releaseConn i ::
      if ok i then
        ScanEvent.validateSnapshot i true ::
          (page.map (ScanEvent.yieldRow i) ++
            (if page.length < pageSize then [] else loadDocumentsTrace pageSize ok (i + 1) rest))
      else [ScanEvent.validateSnapshot i false, ScanEvent.streamError]

/-- Tags the rows of the `i`-th fetched index page with their page index. -/
def tagRows (i : Nat) (page : List (IndexRowFetched Unit)) : List (IndexRowFetched Nat) :=
  page.map fun r =>
    { keyPfx := r.keyPfx, keySuffix := r.keySuffix, keySha256 := r.keySha256
      deleted := r.deleted, data := i }

/-- Embeds the per-page control flow of `_index_scan_inner` (lines 974–1139):
each iteration fetches a page, processes its rows against the reorder buffer
(building the batch), drops the client, calls
`retention_validator.validate_snapshot`, and only then sends the batch's
rows; a failed validation aborts the stream, a short page breaks the loop
after which the remaining buffer is flushed and sent.  Every entry is tagged
with the page index at which its row was fetched, so a yield event names its
row's origin page. -/
def indexScanTrace (o : Order) (iv : KeyInterval) (batchSize : Nat) (ok : Nat → Bool) :
    Nat → List (ScanEntry Nat) → List (List (IndexRowFetched Unit)) →
      List (ScanEvent (ScanEntry Nat))
  | _, buf, [] =>
    (flushSortFilter o iv buf).map fun e => ScanEvent.yieldRow e.data e
  | i, buf, page :: rest =>
    let res := scanRows o iv buf (tagRows i page)
    ScanEvent.fetchPage i :: ScanEvent.releaseConn i ::
      if ok i then
        ScanEvent.validateSnapshot i true ::
          ((res.1.map fun e => ScanEvent.yieldRow e.data e) ++
            (if page.length < batchSize then
              (flushSortFilter o iv res.2.1).map fun e => ScanEvent.yieldRow e.data e
             else indexScanTrace o iv batchSize ok (i + 1) res.2.1 rest))
      else [ScanEvent.validateSnapshot i false, ScanEvent.streamError]

/-! ## Lemmas about the lexicographic byte order -/

/-- Lexicographic byte order is irreflexive. -/
theorem bytesLt_irrefl (a : Bytes) : bytesLt a a = false := by
  induction a with
  | nil => rfl
  | cons x xs ih => simp [bytesLt, ih]

/-- Lexicographic byte order is transitive. -/
theorem bytesLt_trans (a : Bytes) : ∀ b c : Bytes,
    bytesLt a b = true → bytesLt b c = true → bytesLt a c = true := by
  induction a with
  | nil =>
    intro b c h1 h2
    cases c with
    | nil =>
      cases b with
      | nil => simp [bytesLt] at h1
      | cons y ys => simp [bytesLt] at h2
    | cons z zs => simp [bytesLt]
  | cons x xs ih =>
    intro b c h1 h2
    cases b with
    | nil => simp [bytesLt] at h1
    | cons y ys =>
      cases c with
      | nil => simp [bytesLt] at h2
      | cons z zs =>
        simp only [bytesLt] at h1 h2 ⊢
        by_cases hxy : x < y
        · by_cases hyz : y < z
          · simp [Nat.lt_trans hxy hyz]
          · by_cases hzy : z < y
            · simp [hyz, hzy] at h2
            · have hyzeq : y = z := Nat.le_antisymm (Nat.not_lt.mp hzy) (Nat.not_lt.mp hyz)
              subst hyzeq
              simp [hxy]
        · by_cases hyx : y < x
          · simp [hxy, hyx] at h1
          · have hxyeq : x = y := Nat.le_antisymm (Nat.not_lt.mp hyx) (Nat.not_lt.mp hxy)
            subst hxyeq
            simp only [hxy, if_false, Nat.lt_irrefl, if_neg] at h1 ⊢
            by_cases hyz : x < z
            · simp [hyz]
            · by_cases hzy : z < x
              · simp [hyz, hzy] at h2
              · have hyzeq : x = z := Nat.le_antisymm (Nat.not_lt.mp hzy) (Nat.not_lt.mp hyz)
                subst hyzeq
                simp [Nat.lt_irrefl] at h1 h2 ⊢
                exact ih ys zs h1 h2

/-- Lexicographic byte order is asymmetric. -/
theorem bytesLt_asymm {a b : Bytes} (h : bytesLt a b = true) : bytesLt b a = false := by
  by_contra hc
  have hba : bytesLt b a = true := by
    cases hv : bytesLt b a with
    | false => exact absurd hv hc
    | true => rfl
  have := bytesLt_trans a b a h hba
  rw [bytesLt_irrefl] at this
  exact Bool.false_ne_true this

/-- Two byte strings neither of which is below the other are equal. -/
theorem bytesLt_connex (a : Bytes) : ∀ b : Bytes,
    bytesLt a b = false → bytesLt b a = false → a = b := by
  induction a with
  | nil =>
    intro b h1 _
    cases b with
    | nil => rfl
    | cons y ys => simp [bytesLt] at h1
  | cons x xs ih =>
    intro b h1 h2
    cases b with
    | nil => simp [bytesLt] at h2
    | cons y ys =>
      simp only [bytesLt] at h1 h2
      by_cases hxy : x < y
      · simp [hxy] at h1
      · by_cases hyx : y < x
        · simp [hxy, hyx] at h2
        · have hxyeq : x = y := Nat.le_antisymm (Nat.not_lt.mp hyx) (Nat.not_lt.mp hxy)
          subst hxyeq
          simp [Nat.lt_irrefl] at h1 h2
          rw [ih ys h1 h2]

/-- The empty byte string is strictly below every non-empty one. -/
theorem bytesLt_nil (s : Bytes) (h : s ≠ []) : bytesLt [] s = true := by
  cases s with
  | nil => exact absurd rfl h
  | cons x xs => rfl

/-- A byte string is never strictly below its own truncation. -/
theorem bytesLt_take_self (n : Nat) (a : Bytes) : bytesLt a (a.take n) = false := by
  induction a generalizing n with
  | nil => cases n <;> rfl
  | cons x xs ih =>
    cases n with
    | zero => rfl
    | succ m => simp [bytesLt, ih m]

/-- Strict order of equal-length truncations transfers to the full strings. -/
theorem bytesLt_of_take_lt (n : Nat) (a : Bytes) : ∀ b : Bytes,
    bytesLt (a.take n) (b.take n) = true → bytesLt a b = true := by
  induction a generalizing n with
  | nil =>
    intro b h
    cases b with
    | nil => cases n <;> simp [bytesLt] at h
    | cons y ys => rfl
  | cons x xs ih =>
    intro b h
    cases n with
    | zero => simp [bytesLt] at h
    | succ m =>
      cases b with
      | nil => simp [bytesLt] at h
      | cons y ys =>
        simp only [List.take, bytesLt] at h ⊢
        by_cases hxy : x < y
        · simp [hxy]
        · by_cases hyx : y < x
          · simp [hxy, hyx] at h
          · simp [hxy, hyx] at h ⊢
            exact ih m ys h

/-- When two byte strings are strictly ordered and their equal-length
truncations differ, the truncations are strictly ordered the same way. -/
theorem take_lt_of_lt_of_ne {n : Nat} {a b : Bytes} (h : bytesLt a b = true)
    (hne : a.take n ≠ b.take n) : bytesLt (a.take n) (b.take n) = true := by
  have h1 : bytesLt (b.take n) (a.take n) = false := by
    cases hv : bytesLt (b.take n) (a.take n) with
    | false => rfl
    | true =>
      have := bytesLt_of_take_lt n b a hv
      rw [bytesLt_asymm h] at this
      exact absurd this Bool.false_ne_true
  cases hv : bytesLt (a.take n) (b.take n) with
  | false => exact absurd (bytesLt_connex _ _ hv h1) hne
  | true => rfl

/-- No byte string of length at least `n` is strictly below `n` zero bytes. -/
theorem bytesLt_replicate_zero {s : Bytes} {n : Nat} (h : n ≤ s.length) :
    bytesLt s (List.replicate n 0) = false := by
  induction s generalizing n with
  | nil =>
    cases n with
    | zero => rfl
    | succ m => simp at h
  | cons x xs ih =>
    cases n with
    | zero => rfl
    | succ m =>
      simp only [List.replicate, bytesLt]
      simp only [List.length_cons, Nat.succ_le_succ_iff] at h
      simp [ih h]

/-- `n` bytes of 255 are not strictly below a byte string of length at most
`n` whose bytes are at most 255. -/
theorem bytesLt_replicate_max {s : Bytes} {n : Nat} (hb : ∀ x ∈ s, x ≤ 255)
    (h : s.length ≤ n) : bytesLt (List.replicate n 255) s = false := by
  induction s generalizing n with
  | nil => cases n <;> rfl
  | cons x xs ih =>
    cases n with
    | zero => simp at h
    | succ m =>
      simp only [List.replicate, bytesLt]
      have hx : x ≤ 255 := hb x (by simp)
      have hnot : ¬ (255 : Nat) < x := by omega
      simp only [hnot, if_false]
      by_cases hlt : x < 255
      · simp [hlt]
      · have : x = 255 := by omega
        subst this
        simp only [Nat.lt_irrefl, if_neg, if_false]
        simp only [List.length_cons, Nat.succ_le_succ_iff] at h
        simp [ih (fun y hy => hb y (by simp [hy])) h]

/-- A byte string of length below `n` whose bytes are at most 255 is strictly
below `n` bytes of 255. -/
theorem bytesLt_lt_replicate_max {s : Bytes} {n : Nat} (hb : ∀ x ∈ s, x ≤ 255)
    (h : s.length < n) : bytesLt s (List.replicate n 255) = true := by
  induction s generalizing n with
  | nil =>
    cases n with
    | zero => simp at h
    | succ m => rfl
  | cons x xs ih =>
    cases n with
    | zero => simp at h
    | succ m =>
      simp only [List.replicate, bytesLt]
      have hx : x ≤ 255 := hb x (by simp)
      by_cases hlt : x < 255
      · simp [hlt]
      · have hxe : x = 255 := by omega
        subst hxe
        simp only [Nat.lt_irrefl, if_neg, if_false]
        simp only [List.length_cons, Nat.succ_lt_succ_iff] at h
        simp [ih (fun y hy => hb y (by simp [hy])) h]

/-! ## Claim theorems: lease, overwrite, freshness, index params -/

/-- C1: a `Lease::transact` call commits only when both lease checks find the
`id = 1` row with `ts` equal to this lease's `lease_ts`; when the advisory
check returns zero rows the shutdown hook is signalled and the call fails
with lease-lost without committing, and when (after the user function
succeeds) the `FOR SHARE` precondition check returns zero rows the call
likewise signals shutdown and fails with lease-lost without committing. -/
theorem C1_transact_lease_checks {T : Type} (leaseTs : Int) (ta : LeasesTable)
    (f : Except String T) (tp : LeasesTable) :
    ((leaseTransact leaseTs ta f tp).committed = true →
      ta.ts = leaseTs ∧ tp.ts = leaseTs) ∧
    (leaseCheckRows ta leaseTs = 0 →
      leaseTransact leaseTs ta f tp =
        { committed := false, shutdownSignaled := true
          result := Except.error TransactError.leaseLost }) ∧
    (∀ v : T, leaseCheckRows ta leaseTs = 1 → f = Except.ok v →
      leaseCheckRows tp leaseTs = 0 →
      leaseTransact leaseTs ta f tp =
        { committed := false, shutdownSignaled := true
          result := Except.error TransactError.leaseLost }) := by
  refine ⟨?_, ?_, ?_⟩
  · intro h
    unfold leaseTransact at h
    by_cases ha : leaseCheckRows ta leaseTs ≠ 1
    · simp [ha] at h
    · simp only [ha, if_neg, if_false] at h
      simp only [not_not] at ha
      cases f with
      | error e => simp at h
      | ok v =>
        by_cases hp : leaseCheckRows tp leaseTs ≠ 1
        · simp [hp] at h
        · simp only [not_not] at hp
          constructor
          · unfold leaseCheckRows at ha
            by_cases h1 : ta.ts = leaseTs
            · exact h1
            · simp [h1] at ha
          · unfold leaseCheckRows at hp
            by_cases h2 : tp.ts = leaseTs
            · exact h2
            · simp [h2] at hp
  · intro h0
    unfold leaseTransact
    rw [h0]
    simp
  · intro v ha hf hp
    unfold leaseTransact
    rw [ha, hf, hp]
    simp

/-- C1 witness: a concrete stolen lease — the lease holder has `lease_ts =
100` but the row's `ts` is 200 at the advisory check. -/
theorem C1_transact_lease_checks_witness :
    ((@leaseTransact Unit 100 { ts := 200 } (Except.ok ()) { ts := 200 }).committed = true →
      ({ ts := 200 } : LeasesTable).ts = 100 ∧ ({ ts := 200 } : LeasesTable).ts = 100) ∧
    (leaseCheckRows { ts := 200 } 100 = 0 →
      @leaseTransact Unit 100 { ts := 200 } (Except.ok ()) { ts := 200 } =
        { committed := false, shutdownSignaled := true
          result := Except.error TransactError.leaseLost }) ∧
    (∀ v : Unit, leaseCheckRows { ts := 200 } 100 = 1 →
      (Except.ok () : Except String Unit) = Except.ok v →
      leaseCheckRows { ts := 200 } 100 = 0 →
      @leaseTransact Unit 100 { ts := 200 } (Except.ok ()) { ts := 200 } =
        { committed := false, shutdownSignaled := true
          result := Except.error TransactError.leaseLost }) :=
  C1_transact_lease_checks 100 { ts := 200 } (Except.ok ()) { ts := 200 }

/-- C2: `Lease::acquire` performs `UPDATE leases SET ts=$cand WHERE id=1 AND
ts<$cand`; the stored lease timestamp never decreases, the acquire succeeds
exactly when the stored timestamp strictly increased to the candidate, and
otherwise it fails with the higher-timestamp error leaving the row
unchanged. -/
theorem C2_lease_acquire_monotone (t : LeasesTable) (cand : Int) :
    (t.ts ≤ (leaseAcquire t cand).1.ts) ∧
    ((leaseAcquire t cand).2 = Except.ok cand ↔ t.ts < cand) ∧
    (t.ts < cand → (leaseAcquire t cand).1.ts = cand) ∧
    (¬ t.ts < cand →
      (leaseAcquire t cand).1 = t ∧
      (leaseAcquire t cand).2 =
        Except.error "failed to acquire lease: Already acquired with higher timestamp") := by
  unfold leaseAcquire leaseAcquireUpdate
  by_cases h : t.ts < cand
  · simp [h]
    omega
  · simp [h]

/-- C2 witness: acquiring over a lease row at `ts = 5` with candidate 7
succeeds and bumps the row; with candidate 3 it fails and leaves `ts = 5`. -/
theorem C2_lease_acquire_monotone_witness :
    ((5 : Int) ≤ (leaseAcquire { ts := 5 } 7).1.ts) ∧
    ((leaseAcquire { ts := 5 } 7).2 = Except.ok 7 ↔ (5 : Int) < 7) ∧
    ((5 : Int) < 7 → (leaseAcquire { ts := 5 } 7).1.ts = 7) ∧
    (¬ (5 : Int) < 7 →
      (leaseAcquire { ts := 5 } 7).1 = { ts := 5 } ∧
      (leaseAcquire { ts := 5 } 7).2 =
        Except.error "failed to acquire lease: Already acquired with higher timestamp") :=
  C2_lease_acquire_monotone { ts := 5 } 7

/-- C5: under the `Overwrite` conflict strategy, writing a row whose primary
key already exists updates only `deleted` and `json_value` for documents
(`prev_ts` and the identity columns keep their original values) and only
`deleted`, `table_id` and `document_id` for indexes (`key_prefix`,
`key_suffix` and the primary-key columns keep their original values); every
other row of both tables is unchanged. -/
theorem C5_overwrite_frame (dt : DocumentsTable) (k : DocumentsKey)
    (d old : DocumentsData) (it : IndexesTable) (ik : IndexesKey)
    (idd iold : IndexesData) (hd : dt k = some old) (hi : it ik = some iold) :
    (insertOverwriteDocument dt k d k =
      some { jsonValue := d.jsonValue, deleted := d.deleted, prevTs := old.prevTs }) ∧
    (∀ k', k' ≠ k → insertOverwriteDocument dt k d k' = dt k') ∧
    (insertOverwriteIndex it ik idd ik =
      some { keyPfx := iold.keyPfx, keySuffix := iold.keySuffix
             deleted := idd.deleted, tableId := idd.tableId
             documentId := idd.documentId }) ∧
    (∀ k', k' ≠ ik → insertOverwriteIndex it ik idd k' = it k') := by
  refine ⟨?_, ?_, ?_, ?_⟩
  · unfold insertOverwriteDocument
    rw [hd]
    simp
  · intro k' hk
    unfold insertOverwriteDocument
    simp [hk]
  · unfold insertOverwriteIndex
    rw [hi]
    simp
  · intro k' hk
    unfold insertOverwriteIndex
    simp [hk]

/-- C5 witness: the spec's scenario S2 — a stored document row with
`prev_ts = None` overwritten by a row carrying `value = B, prev_ts = 42`
keeps `prev_ts = None` and takes the new value; a stored index row keeps its
key columns. -/
theorem C5_overwrite_frame_witness :
    ((insertOverwriteDocument
        (fun k' => if k' = { ts := 1, tableId := [7], id := [170] } then
          some { jsonValue := "A", deleted := false, prevTs := none } else none)
        { ts := 1, tableId := [7], id := [170] }
        { jsonValue := "B", deleted := false, prevTs := some 42 }
        { ts := 1, tableId := [7], id := [170] }) =
      some { jsonValue := "B", deleted := false, prevTs := none }) ∧
    (∀ k', k' ≠ ({ ts := 1, tableId := [7], id := [170] } : DocumentsKey) →
      (insertOverwriteDocument
        (fun k'' => if k'' = { ts := 1, tableId := [7], id := [170] } then
          some { jsonValue := "A", deleted := false, prevTs := none } else none)
        { ts := 1, tableId := [7], id := [170] }
        { jsonValue := "B", deleted := false, prevTs := some 42 } k') =
      (fun k'' => if k'' = ({ ts := 1, tableId := [7], id := [170] } : DocumentsKey) then
          some ({ jsonValue := "A", deleted := false, prevTs := none } : DocumentsData)
        else none) k') ∧
    ((insertOverwriteIndex
        (fun k' => if k' = { indexId := [1], keySha256 := [2], ts := 3 } then
          some { keyPfx := [9], keySuffix := none, deleted := false
                 tableId := some [7], documentId := some [170] } else none)
        { indexId := [1], keySha256 := [2], ts := 3 }
        { keyPfx := [8], keySuffix := some [4], deleted := true
          tableId := none, documentId := none }
        { indexId := [1], keySha256 := [2], ts := 3 }) =
      some { keyPfx := [9], keySuffix := none, deleted := true
             tableId := none, documentId := none }) ∧
    (∀ k', k' ≠ ({ indexId := [1], keySha256 := [2], ts := 3 } : IndexesKey) →
      (insertOverwriteIndex
        (fun k'' => if k'' = { indexId := [1], keySha256 := [2], ts := 3 } then
          some { keyPfx := [9], keySuffix := none, deleted := false
                 tableId := some [7], documentId := some [170] } else none)
        { indexId := [1], keySha256 := [2], ts := 3 }
        { keyPfx := [8], keySuffix := some [4], deleted := true
          tableId := none, documentId := none } k') =
      (fun k'' => if k'' = ({ indexId := [1], keySha256 := [2], ts := 3 } : IndexesKey) then
          some ({ keyPfx := [9], keySuffix := none, deleted := false
                  tableId := some [7], documentId := some [170] } : IndexesData)
        else none) k') :=
  C5_overwrite_frame
    (fun k' => if k' = { ts := 1, tableId := [7], id := [170] } then
      some { jsonValue := "A", deleted := false, prevTs := none } else none)
    { ts := 1, tableId := [7], id := [170] }
    { jsonValue := "B", deleted := false, prevTs := some 42 }
    { jsonValue := "A", deleted := false, prevTs := none }
    (fun k' => if k' = { indexId := [1], keySha256 := [2], ts := 3 } then
      some { keyPfx := [9], keySuffix := none, deleted := false
             tableId := some [7], documentId := some [170] } else none)
    { indexId := [1], keySha256 := [2], ts := 3 }
    { keyPfx := [8], keySuffix := some [4], deleted := true
      tableId := none, documentId := none }
    { keyPfx := [9], keySuffix := none, deleted := false
      tableId := some [7], documentId := some [170] }
    (by decide) (by decide)

/-- C9 counterexample: the claim says a failed `write()` leaves the freshness
flag unchanged, but the source stores `newly_created = false` before the
lease transaction runs, so a freshly created backend reports not-fresh after
a failed write. -/
theorem C9_fresh_flag_counterexample :
    isFresh (postgresPersistenceInit []) = true ∧
    isFresh (postgresWrite (postgresPersistenceInit [])
      [({ ts := 1, tableId := [7], id := [170] },
        { jsonValue := "A", deleted := false, prevTs := none })] false).1 = false := by
  constructor
  · rfl
  · rfl

/-- C9 (amended): `is_fresh()` initially reports whether the documents table
was empty at construction; the flag flips to false on any `write()` attempt
— successful or not, since it is stored before the transaction runs — and a
failed write commits no change to the table contents. -/
theorem C9_fresh_flag_amended (docs newRows : List (DocumentsKey × DocumentsData))
    (txCommits : Bool) :
    (isFresh (postgresPersistenceInit docs) = docs.isEmpty) ∧
    (isFresh (postgresWrite (postgresPersistenceInit docs) newRows txCommits).1 = false) ∧
    (∀ s : BackendState, txCommits = false →
      (postgresWrite s newRows txCommits).1.documents = s.documents ∧
      (postgresWrite s newRows txCommits).2 = false) := by
  refine ⟨rfl, ?_, ?_⟩
  · unfold postgresWrite
    cases txCommits <;> simp [isFresh]
  · intro s h
    subst h
    simp [postgresWrite]

/-- C9 witness: the amended statement at a concrete failing write on a fresh
backend. -/
theorem C9_fresh_flag_amended_witness :
    (isFresh (postgresPersistenceInit []) = List.isEmpty ([] : List (DocumentsKey × DocumentsData))) ∧
    (isFresh (postgresWrite (postgresPersistenceInit [])
      [({ ts := 1, tableId := [7], id := [170] },
        { jsonValue := "A", deleted := false, prevTs := none })] false).1 = false) ∧
    (∀ s : BackendState, false = false →
      (postgresWrite s
        [({ ts := 1, tableId := [7], id := [170] },
          { jsonValue := "A", deleted := false, prevTs := none })] false).1.documents =
        s.documents ∧
      (postgresWrite s
        [({ ts := 1, tableId := [7], id := [170] },
          { jsonValue := "A", deleted := false, prevTs := none })] false).2 = false) :=
  C9_fresh_flag_amended [] _ false

/-- C10: in the writer's index parameter encoding, `deleted` is true exactly
when the entry's value (the document id) is absent; in that case `table_id`
and `document_id` are NULL, and when a value is present `deleted` is false
and the two columns carry the document's tablet id and internal id. -/
theorem C10_index_params_populated (sha : Bytes → Bytes) (u : PersistenceIndexEntry) :
    ((indexParams sha u).get? 5 = some (Param.deleted u.value.isNone)) ∧
    (u.value = none →
      (indexParams sha u).get? 6 = some Param.null ∧
      (indexParams sha u).get? 7 = some Param.null) ∧
    (∀ d : InternalDocumentId, u.value = some d →
      (indexParams sha u).get? 6 = some (Param.tableId d.tableId) ∧
      (indexParams sha u).get? 7 = some (Param.bytes d.internalId)) := by
  refine ⟨?_, ?_, ?_⟩
  · cases hv : u.value <;> simp [indexParams, hv]
  · intro hv
    simp [indexParams, hv]
  · intro d hv
    simp [indexParams, hv]

/-- C10 witness: a tombstone entry gets `deleted = true` with NULL ids, a
live entry gets `deleted = false` with both ids populated. -/
theorem C10_index_params_populated_witness :
    ((indexParams (fun _ => [0]) { indexId := [1], ts := 2, key := [3], value := none }).get? 5 =
      some (Param.deleted true)) ∧
    ((indexParams (fun _ => [0])
        { indexId := [1], ts := 2, key := [3]
          value := some { tableId := [7], internalId := [9] } }).get? 6 =
      some (Param.tableId [7])) := by
  have h1 := C10_index_params_populated (fun _ => [0])
    { indexId := [1], ts := 2, key := [3], value := none }
  have h2 := C10_index_params_populated (fun _ => [0])
    { indexId := [1], ts := 2, key := [3], value := some { tableId := [7], internalId := [9] } }
  exact ⟨h1.1, (h2.2.2 _ rfl).1⟩


/-- The descending-by-ts comparator used by `ORDER BY ts DESC` is transitive. -/
theorem tsDescLe_trans (a b c : DocRow) :
    decide (b.ts ≤ a.ts) = true → decide (c.ts ≤ b.ts) = true →
    decide (c.ts ≤ a.ts) = true := by
  intro h1 h2
  simp at h1 h2 ⊢
  omega

/-- The descending-by-ts comparator is total. -/
theorem tsDescLe_total (a b : DocRow) :
    (decide (b.ts ≤ a.ts) || decide (a.ts ≤ b.ts)) = true := by
  by_cases h : b.ts ≤ a.ts
  · simp [h]
  · simp
    omega

/-- A `PREV_REV` hit is a matching revision below the query timestamp that is
timestamp-maximal among all such revisions. -/
theorem prevRevQuery_some_spec (docs : List DocRow) (tid id : Bytes) (qts : Int)
    (r : DocRow) (hr : prevRevQuery docs tid id qts = some r) :
    r ∈ docs ∧ r.tableId = tid ∧ r.id = id ∧ r.ts < qts ∧
      ∀ r' ∈ docs, r'.tableId = tid → r'.id = id → r'.ts < qts → r'.ts ≤ r.ts := by
  have hfilter : ∀ x : DocRow,
      x ∈ docs.filter (fun y => decide (y.tableId = tid ∧ y.id = id ∧ y.ts < qts)) ↔
      x ∈ docs ∧ x.tableId = tid ∧ x.id = id ∧ x.ts < qts := by
    intro x
    simp [List.mem_filter]
  unfold prevRevQuery at hr
  set l := docs.filter (fun y => decide (y.tableId = tid ∧ y.id = id ∧ y.ts < qts)) with hl
  have hsorted := @List.sorted_mergeSort _ (fun a b : DocRow => decide (b.ts ≤ a.ts))
    tsDescLe_trans tsDescLe_total l
  cases hm : l.mergeSort (fun a b : DocRow => decide (b.ts ≤ a.ts)) with
  | nil => rw [hm] at hr; simp at hr
  | cons hd tl =>
    rw [hm] at hr
    have heq : hd = r := by simpa using hr
    have hmem : r ∈ l := by
      have h1 : r ∈ hd :: tl := by
        rw [← heq]
        exact List.mem_cons_self hd tl
      rw [← hm] at h1
      exact (List.mem_mergeSort).mp h1
    have hrprops := (hfilter r).mp hmem
    refine ⟨hrprops.1, hrprops.2.1, hrprops.2.2.1, hrprops.2.2.2, ?_⟩
    intro r' hr'mem h1 h2 h3
    have hr'l : r' ∈ l := (hfilter r').mpr ⟨hr'mem, h1, h2, h3⟩
    have hr'm : r' ∈ hd :: tl := by
      rw [← hm]
      exact (List.mem_mergeSort).mpr hr'l
    rcases List.mem_cons.mp hr'm with he | htl
    · rw [he, ← heq]
    · rw [hm] at hsorted
      have := (List.pairwise_cons.mp hsorted).1 r' htl
      rw [heq] at this
      simpa using this

/-- A `PREV_REV` miss means no matching revision below the query timestamp
exists. -/
theorem prevRevQuery_none_spec (docs : List DocRow) (tid id : Bytes) (qts : Int) :
    prevRevQuery docs tid id qts = none ↔
      ∀ r ∈ docs, r.tableId = tid → r.id = id → ¬ r.ts < qts := by
  have hfilter : ∀ x : DocRow,
      x ∈ docs.filter (fun y => decide (y.tableId = tid ∧ y.id = id ∧ y.ts < qts)) ↔
      x ∈ docs ∧ x.tableId = tid ∧ x.id = id ∧ x.ts < qts := by
    intro x
    simp [List.mem_filter]
  unfold prevRevQuery
  set l := docs.filter (fun y => decide (y.tableId = tid ∧ y.id = id ∧ y.ts < qts)) with hl
  constructor
  · intro hn r hrmem h1 h2 h3
    have hmem : r ∈ l := (hfilter r).mpr ⟨hrmem, h1, h2, h3⟩
    cases hm : l.mergeSort (fun a b : DocRow => decide (b.ts ≤ a.ts)) with
    | nil =>
      have : l = [] := by
        have hlen := congrArg List.length hm
        simpa using hlen
      rw [this] at hmem
      simp at hmem
    | cons hd tl => rw [hm] at hn; simp at hn
  · intro h
    have : l = [] := by
      rw [List.eq_nil_iff_forall_not_mem]
      intro r hmem
      have hp := (hfilter r).mp hmem
      exact h r hp.1 hp.2.1 hp.2.2.1 hp.2.2.2
    rw [this]
    simp

/-- C7: for every requested pair, `previous_revisions` maps it to the
revision of the id with the greatest timestamp strictly below the requested
timestamp, and omits the pair when no such revision exists: each map entry is
exactly a hit of that pair's `PREV_REV` subquery, a hit is a matching
timestamp-maximal revision below the bound (unique under primary-key
uniqueness), and a miss means no matching revision below the bound exists. -/
theorem C7_previous_revisions_spec (docs : List DocRow) (tid id : Bytes) (qts : Int)
    (queries : List (Bytes × Bytes × Int))
    (hpk : docs.Pairwise fun a b => a.tableId = b.tableId → a.id = b.id → a.ts ≠ b.ts) :
    (∀ r, prevRevQuery docs tid id qts = some r →
      r ∈ docs ∧ r.tableId = tid ∧ r.id = id ∧ r.ts < qts ∧
        ∀ r' ∈ docs, r'.tableId = tid → r'.id = id → r'.ts < qts → r'.ts ≤ r.ts) ∧
    (prevRevQuery docs tid id qts = none ↔
      ∀ r ∈ docs, r.tableId = tid → r.id = id → ¬ r.ts < qts) ∧
    (∀ r r' : DocRow,
      (r ∈ docs ∧ r.tableId = tid ∧ r.id = id ∧ r.ts < qts ∧
        ∀ x ∈ docs, x.tableId = tid → x.id = id → x.ts < qts → x.ts ≤ r.ts) →
      (r' ∈ docs ∧ r'.tableId = tid ∧ r'.id = id ∧ r'.ts < qts ∧
        ∀ x ∈ docs, x.tableId = tid → x.id = id → x.ts < qts → x.ts ≤ r'.ts) →
      r = r') ∧
    (∀ q r, (q, r) ∈ previousRevisions docs queries ↔
      q ∈ queries ∧ prevRevQuery docs q.1 q.2.1 q.2.2 = some r) := by
  refine ⟨fun r hr => prevRevQuery_some_spec docs tid id qts r hr,
    prevRevQuery_none_spec docs tid id qts, ?_, ?_⟩
  · rintro r r' ⟨hm, h1, h2, h3, hmax⟩ ⟨hm', h1', h2', h3', hmax'⟩
    have hts : r.ts = r'.ts :=
      le_antisymm (hmax' r hm h1 h2 h3) (hmax r' hm' h1' h2' h3')
    by_contra hne
    have hsymm : Symmetric fun a b : DocRow =>
        a.tableId = b.tableId → a.id = b.id → a.ts ≠ b.ts := by
      intro a b hab hba1 hba2
      exact fun he => hab hba1.symm hba2.symm he.symm
    have := List.Pairwise.forall hsymm hpk hm hm' hne
    exact this (h1.trans h1'.symm) (h2.trans h2'.symm) hts
  · intro q r
    unfold previousRevisions
    rw [List.mem_filterMap]
    constructor
    · rintro ⟨q', hq', hf⟩
      rcases Option.map_eq_some'.mp hf with ⟨x, hx, hxe⟩
      have hq : q' = q := congrArg Prod.fst hxe
      have hr : x = r := congrArg Prod.snd hxe
      rw [hq] at hq' hx
      rw [hr] at hx
      exact ⟨hq', hx⟩
    · rintro ⟨hq, hx⟩
      exact ⟨q, hq, by rw [hx]; rfl⟩

/-- C7 witness: the spec's concrete example — revisions of one id at
timestamps 10, 30 and 60, queried at 50, answer with the revision at 30. -/
theorem C7_previous_revisions_spec_witness :
    prevRevQuery
      [ { id := [1], tableId := [2], ts := 10, jsonValue := "a", deleted := false, prevTs := none }
      , { id := [1], tableId := [2], ts := 30, jsonValue := "b", deleted := false, prevTs := none }
      , { id := [1], tableId := [2], ts := 60, jsonValue := "c", deleted := false, prevTs := none } ]
      [2] [1] 50 =
      some { id := [1], tableId := [2], ts := 30, jsonValue := "b", deleted := false
             prevTs := none } ∧
    (∀ r, prevRevQuery
      [ { id := [1], tableId := [2], ts := 10, jsonValue := "a", deleted := false, prevTs := none }
      , { id := [1], tableId := [2], ts := 30, jsonValue := "b", deleted := false, prevTs := none }
      , { id := [1], tableId := [2], ts := 60, jsonValue := "c", deleted := false, prevTs := none } ]
      [2] [1] 50 = some r →
      r ∈ [ { id := [1], tableId := [2], ts := 10, jsonValue := "a", deleted := false
              prevTs := none }
          , { id := [1], tableId := [2], ts := 30, jsonValue := "b", deleted := false
              prevTs := none }
          , { id := [1], tableId := [2], ts := 60, jsonValue := "c", deleted := false
              prevTs := none } ] ∧
        r.tableId = [2] ∧ r.id = [1] ∧ r.ts < 50 ∧ True) := by
  constructor
  · simp [prevRevQuery, List.mergeSort, List.merge]
  · intro r hr
    have h := (C7_previous_revisions_spec _ [2] [1] 50 [] (by simp)).1 r hr
    exact ⟨h.1, h.2.1, h.2.2.1, h.2.2.2.1, trivial⟩

/-- C4: `to_sql_bounds` translates the half-open logical interval into SQL
`(key_prefix, key_sha256)` bounds: the lower bound is always
`Included(min_with_same_prefix(start))` with an all-zero SHA-256; the upper
bound is `Excluded(min_with_same_prefix(end))` for ends shorter than 2500
bytes, `Included(max_with_same_prefix(end))` with an all-one SHA-256
otherwise, and `Unbounded` for an unbounded end; and the SQL range is a
superset of the logical range — every key the interval contains falls within
the SQL bounds under the row comparison of the generated where clauses. -/
theorem C4_to_sql_bounds_superset (iv : KeyInterval) (sha : Bytes → Bytes)
    (hsha : ∀ k, (sha k).length = 32 ∧ ∀ x ∈ sha k, x ≤ 255) :
    ((toSqlBounds iv).1 = SqlBound.included (sqlKeyMinWithSamePfx iv.startKey)) ∧
    ((sqlKeyMinWithSamePfx iv.startKey).sha256 = List.replicate 32 0) ∧
    (∀ e, iv.endBound = IntervalEnd.excluded e → e.length < maxIndexKeyPfxLen →
      (toSqlBounds iv).2 = SqlBound.excluded (sqlKeyMinWithSamePfx e)) ∧
    (∀ e, iv.endBound = IntervalEnd.excluded e → ¬ e.length < maxIndexKeyPfxLen →
      (toSqlBounds iv).2 = SqlBound.included (sqlKeyMaxWithSamePfx e) ∧
        (sqlKeyMaxWithSamePfx e).sha256 = List.replicate 32 255) ∧
    (iv.endBound = IntervalEnd.unbounded → (toSqlBounds iv).2 = SqlBound.unbounded) ∧
    (∀ k, intervalContains iv k = true →
      sqlBoundsContain (toSqlBounds iv)
        { pfx := k.take maxIndexKeyPfxLen, sha256 := sha k } = true) := by
  refine ⟨rfl, rfl, ?_, ?_, ?_, ?_⟩
  · intro e he hshort
    simp [toSqlBounds, he, hshort]
  · intro e he hlong
    simp [toSqlBounds, he, hlong]
    rfl
  · intro he
    simp [toSqlBounds, he]
  · intro k hk
    unfold intervalContains at hk
    rw [Bool.and_eq_true] at hk
    have hlow : bytesLt k iv.startKey = false := by
      have := hk.1
      cases hv : bytesLt k iv.startKey with
      | false => rfl
      | true => rw [hv] at this; simp at this
    unfold sqlBoundsContain toSqlBounds
    rw [Bool.and_eq_true]
    constructor
    · -- lower bound: (take start, zeros) <= (take k, sha k)
      simp only [sqlLowerSatisfied, sqlKeyMinWithSamePfx, SplitKey.new, sqlKeyPairLe]
      by_cases heq : iv.startKey.take maxIndexKeyPfxLen = k.take maxIndexKeyPfxLen
      · have hz : bytesLt (sha k) minSha256 = false :=
          bytesLt_replicate_zero (by rw [(hsha k).1])
        simp [heq, minSha256] at hz ⊢
        simp [hz]
      · have h1 : bytesLt (k.take maxIndexKeyPfxLen) (iv.startKey.take maxIndexKeyPfxLen) = false := by
          cases hv : bytesLt (k.take maxIndexKeyPfxLen) (iv.startKey.take maxIndexKeyPfxLen) with
          | false => rfl
          | true =>
            have := bytesLt_of_take_lt maxIndexKeyPfxLen k iv.startKey hv
            rw [hlow] at this
            exact absurd this Bool.false_ne_true
        have h2 : bytesLt (iv.startKey.take maxIndexKeyPfxLen) (k.take maxIndexKeyPfxLen) = true := by
          cases hv : bytesLt (iv.startKey.take maxIndexKeyPfxLen) (k.take maxIndexKeyPfxLen) with
          | false => exact absurd (bytesLt_connex _ _ hv h1) heq
          | true => rfl
        simp [h2]
    · -- upper bound
      cases hend : iv.endBound with
      | unbounded => simp [sqlUpperSatisfied]
      | excluded e =>
        rw [hend] at hk
        have hke : bytesLt k e = true := hk.2
        by_cases hshort : e.length < maxIndexKeyPfxLen
        · have hte : e.take maxIndexKeyPfxLen = e :=
            List.take_of_length_le (Nat.le_of_lt hshort)
          have hne : k.take maxIndexKeyPfxLen ≠ e := by
            intro hc
            have hts := bytesLt_take_self maxIndexKeyPfxLen k
            rw [hc, hke] at hts
            simp at hts
          have hlt : bytesLt (k.take maxIndexKeyPfxLen) (e.take maxIndexKeyPfxLen) = true := by
            refine take_lt_of_lt_of_ne hke ?_
            rw [hte]
            exact hne
          simp [hshort, sqlUpperSatisfied, sqlKeyPairLt, sqlKeyMinWithSamePfx, SplitKey.new]
          exact Or.inl hlt
        · by_cases heq : k.take maxIndexKeyPfxLen = e.take maxIndexKeyPfxLen
          · have hmax : bytesLt maxSha256 (sha k) = false :=
              bytesLt_replicate_max (hsha k).2 (by rw [(hsha k).1])
            simp [hshort, sqlUpperSatisfied, sqlKeyPairLe, sqlKeyMaxWithSamePfx, SplitKey.new,
              heq, maxSha256] at hmax ⊢
            simp [hmax]
          · have hlt : bytesLt (k.take maxIndexKeyPfxLen) (e.take maxIndexKeyPfxLen) = true :=
              take_lt_of_lt_of_ne hke heq
            simp [hshort, sqlUpperSatisfied, sqlKeyMaxWithSamePfx, SplitKey.new]
            unfold sqlKeyPairLe
            simp [hlt]

/-- C4 witness: the concrete interval `[[1], [2])` with a constant zero
SHA-256 function; `[1]` is in the interval and within the SQL bounds. -/
theorem C4_to_sql_bounds_superset_witness :
    ((toSqlBounds { startKey := [1], endBound := IntervalEnd.excluded [2] }).1 =
      SqlBound.included (sqlKeyMinWithSamePfx [1])) ∧
    (sqlBoundsContain (toSqlBounds { startKey := [1], endBound := IntervalEnd.excluded [2] })
      { pfx := ([1] : Bytes).take maxIndexKeyPfxLen
        sha256 := (fun _ : Bytes => List.replicate 32 0) [1] } = true) := by
  have h := C4_to_sql_bounds_superset
    { startKey := [1], endBound := IntervalEnd.excluded [2] }
    (fun _ => List.replicate 32 0)
    (fun k => ⟨by simp, by intro x hx; simp at hx; omega⟩)
  exact ⟨h.1, h.2.2.2.2.2 [1] (by decide)⟩

/-! ## Lemmas about the document cursor order and the page loops -/

/-- No byte string is strictly below the empty one. -/
theorem bytesLt_nil_right (s : Bytes) : bytesLt s [] = false := by
  cases s <;> rfl

/-- The cursor tuple order is irreflexive. -/
theorem docKeyLt_irrefl (a : DocCursor) : docKeyLt a a = false := by
  unfold docKeyLt
  simp [bytesLt_irrefl]

/-- The cursor tuple order is transitive. -/
theorem docKeyLt_trans {a b c : DocCursor} (h1 : docKeyLt a b = true)
    (h2 : docKeyLt b c = true) : docKeyLt a c = true := by
  unfold docKeyLt at h1 h2 ⊢
  simp only [Bool.or_eq_true, Bool.and_eq_true, decide_eq_true_eq, beq_iff_eq] at h1 h2 ⊢
  rcases h1 with h1 | ⟨he1, h1⟩
  · rcases h2 with h2 | ⟨he2, h2⟩
    · exact Or.inl (lt_trans h1 h2)
    · exact Or.inl (he2 ▸ h1)
  · rcases h2 with h2 | ⟨he2, h2⟩
    · exact Or.inl (he1 ▸ h2)
    · refine Or.inr ⟨he1.trans he2, ?_⟩
      rcases h1 with h1 | ⟨hb1, h1⟩
      · rcases h2 with h2 | ⟨hb2, h2⟩
        · exact Or.inl (bytesLt_trans _ _ _ h1 h2)
        · exact Or.inl (hb2 ▸ h1)
      · rcases h2 with h2 | ⟨hb2, h2⟩
        · exact Or.inl (hb1 ▸ h2)
        · exact Or.inr ⟨hb1.trans hb2, bytesLt_trans _ _ _ h1 h2⟩

/-- The cursor tuple order is asymmetric. -/
theorem docKeyLt_asymm {a b : DocCursor} (h : docKeyLt a b = true) :
    docKeyLt b a = false := by
  by_contra hc
  have hba : docKeyLt b a = true := by
    cases hv : docKeyLt b a with
    | false => exact absurd hv hc
    | true => rfl
  have := docKeyLt_trans h hba
  rw [docKeyLt_irrefl] at this
  exact Bool.false_ne_true this

/-- Cursor tuples neither of which is below the other are equal. -/
theorem docKeyLt_connex {a b : DocCursor} (h1 : docKeyLt a b = false)
    (h2 : docKeyLt b a = false) : a = b := by
  obtain ⟨a1, a2, a3⟩ := a
  obtain ⟨b1, b2, b3⟩ := b
  have hts : a1 = b1 := by
    by_contra hne
    rcases lt_or_gt_of_ne hne with h | h
    · unfold docKeyLt at h1
      simp [h] at h1
    · unfold docKeyLt at h2
      simp [h] at h2
  subst hts
  unfold docKeyLt at h1 h2
  simp at h1 h2
  have htid : a2 = b2 := bytesLt_connex _ _ h1.1 h2.1
  subst htid
  have hid : a3 = b3 := bytesLt_connex _ _ (h1.2 rfl) (h2.2 rfl)
  subst hid
  rfl

/-- A stored id is strictly below the AFTER_ALL sentinel. -/
theorem validId_lt_afterAll {b : Bytes} (h : validId b) :
    bytesLt b afterAllBytes = true := by
  unfold afterAllBytes
  refine bytesLt_lt_replicate_max h.2 ?_
  rw [h.1]
  omega

/-- The BEFORE_ALL sentinel is strictly below a stored id. -/
theorem beforeAll_lt_validId {b : Bytes} (h : validId b) :
    bytesLt beforeAllBytes b = true := by
  unfold beforeAllBytes
  refine bytesLt_nil b ?_
  intro hc
  rw [hc] at h
  simp [validId] at h

/-- The initial ascending cursor comparison `(ts, table_id, id) > (ts_min − 1,
AFTER_ALL, AFTER_ALL)` holds exactly when `ts ≥ ts_min` — the equivalence the
source's comment on lines 791–794 asserts. -/
theorem ascInitialCursor (minTs : Int) (r : DocRow) (h : validDocRow r) :
    docKeyLt (minTs - 1, afterAllBytes, afterAllBytes) (docRowKey r) =
      decide (minTs ≤ r.ts) := by
  unfold docKeyLt docRowKey
  by_cases hts : minTs ≤ r.ts
  · have : minTs - 1 < r.ts := by omega
    simp [this, hts]
  · have h1 : ¬ (minTs - 1 < r.ts) := by omega
    simp only [h1, decide_eq_false h1, hts, decide_eq_false hts, Bool.false_or]
    by_cases he : minTs - 1 = r.ts
    · have hlt := validId_lt_afterAll h.1
      have hf : bytesLt afterAllBytes r.tableId = false := bytesLt_asymm hlt
      have hne : afterAllBytes ≠ r.tableId := by
        intro hc
        rw [hc, bytesLt_irrefl] at hlt
        exact Bool.false_ne_true hlt
      simp [hf, hne]
    · simp [he]

/-- The initial descending cursor comparison `(ts, table_id, id) < (ts_max,
BEFORE_ALL, BEFORE_ALL)` holds exactly when `ts < ts_max` — the equivalence
the source's comment on line 800 asserts. -/
theorem descInitialCursor (maxTs : Int) (r : DocRow) (h : validDocRow r) :
    docKeyLt (docRowKey r) (maxTs, beforeAllBytes, beforeAllBytes) =
      decide (r.ts < maxTs) := by
  unfold docKeyLt docRowKey
  by_cases hts : r.ts < maxTs
  · simp [hts]
  · simp only [hts, decide_eq_false hts, Bool.false_or]
    by_cases he : r.ts = maxTs
    · have hne : r.tableId ≠ beforeAllBytes := by
        intro hc
        have := h.1.1
        rw [hc] at this
        simp [beforeAllBytes] at this
      simp [beforeAllBytes, bytesLt_nil_right, hne]
    · simp [he]

/-- In a strictly pairwise-ordered list `A ++ x :: B`, the elements strictly
above `x` are exactly those of `B`. -/
theorem filter_above_middle {α : Type} (lt : α → α → Bool)
    (hasymm : ∀ a b : α, lt a b = true → lt b a = false) (A B : List α) (x : α)
    (hp : (A ++ x :: B).Pairwise fun a b => lt a b = true) :
    (A ++ x :: B).filter (fun y => lt x y) = B := by
  rw [List.filter_append]
  have hsplit := List.pairwise_append.mp hp
  have hA : A.filter (fun y => lt x y) = [] := by
    rw [List.filter_eq_nil_iff]
    intro a ha
    have hax : lt a x = true := hsplit.2.2 a ha x (by simp)
    rw [hasymm _ _ hax]
    simp
  have hxx : lt x x = false := by
    cases hv : lt x x with
    | false => rfl
    | true =>
      have hc := hasymm _ _ hv
      rw [hv] at hc
      exact hc
  have hB : (x :: B).filter (fun y => lt x y) = B := by
    rw [List.filter_cons]
    simp only [hxx, if_neg, Bool.false_eq_true, if_false]
    rw [List.filter_eq_self]
    intro b hb
    exact (List.pairwise_cons.mp hsplit.2.1).1 b hb
  rw [hA, hB]
  rfl

/-- Two strictly pairwise-ordered permutations of each other are equal. -/
theorem eq_of_perm_of_pairwise {α : Type} {R : α → α → Prop}
    (hasymm : ∀ a b : α, R a b → ¬ R b a) :
    ∀ {l1 l2 : List α}, l1.Perm l2 → l1.Pairwise R → l2.Pairwise R → l1 = l2 := by
  intro l1
  induction l1 with
  | nil =>
    intro l2 hperm _ _
    exact (hperm.nil_eq).symm ▸ rfl
  | cons a t1 ih =>
    intro l2 hperm h1 h2
    cases l2 with
    | nil => exact absurd hperm.symm.nil_eq (by simp)
    | cons b t2 =>
      have hab : a = b := by
        by_contra hne
        have hamem : a ∈ b :: t2 := hperm.mem_iff.mp (by simp)
        have hbmem : b ∈ a :: t1 := hperm.mem_iff.mpr (by simp)
        have ha2 : a ∈ t2 := by
          rcases List.mem_cons.mp hamem with h | h
          · exact absurd h hne
          · exact h
        have hb1 : b ∈ t1 := by
          rcases List.mem_cons.mp hbmem with h | h
          · exact absurd h.symm hne
          · exact h
        have hRab : R a b := (List.pairwise_cons.mp h1).1 b hb1
        have hRba : R b a := (List.pairwise_cons.mp h2).1 a ha2
        exact hasymm _ _ hRab hRba
      subst hab
      have htperm : t1.Perm t2 := hperm.cons_inv
      rw [ih htperm (List.pairwise_cons.mp h1).2 (List.pairwise_cons.mp h2).2]

/-- Sorting an already strictly ascending row list with the ascending page
comparator leaves it unchanged. -/
theorem mergeSort_asc_of_sorted {l : List DocRow}
    (h : l.Pairwise fun a b => docKeyLt (docRowKey a) (docRowKey b) = true) :
    l.mergeSort (fun a b => !(docKeyLt (docRowKey b) (docRowKey a))) = l := by
  apply List.mergeSort_of_sorted
  refine h.imp ?_
  intro a b hab
  rw [docKeyLt_asymm hab]
  rfl

/-- The descending page comparator is transitive. -/
theorem descRowLe_trans (a b c : DocRow)
    (h1 : (!(docKeyLt (docRowKey a) (docRowKey b))) = true)
    (h2 : (!(docKeyLt (docRowKey b) (docRowKey c))) = true) :
    (!(docKeyLt (docRowKey a) (docRowKey c))) = true := by
  simp only [Bool.not_eq_true'] at h1 h2
  simp only [Bool.not_eq_true']
  cases hv : docKeyLt (docRowKey a) (docRowKey c) with
  | false => rfl
  | true =>
    cases hba : docKeyLt (docRowKey b) (docRowKey a) with
    | false =>
      have heq := docKeyLt_connex h1 hba
      rw [heq] at hv
      rw [hv] at h2
      exact h2
    | true =>
      have := docKeyLt_trans hba hv
      rw [this] at h2
      exact h2

/-- The descending page comparator is total. -/
theorem descRowLe_total (a b : DocRow) :
    ((!(docKeyLt (docRowKey a) (docRowKey b))) ||
      (!(docKeyLt (docRowKey b) (docRowKey a)))) = true := by
  cases hv : docKeyLt (docRowKey a) (docRowKey b) with
  | false => simp
  | true => simp [docKeyLt_asymm hv]

/-- Sorting a strictly ascending row list with the descending page comparator
reverses it. -/
theorem mergeSort_desc_of_sorted {l : List DocRow}
    (h : l.Pairwise fun a b => docKeyLt (docRowKey a) (docRowKey b) = true) :
    l.mergeSort (fun a b => !(docKeyLt (docRowKey a) (docRowKey b))) = l.reverse := by
  have hasymmP : ∀ a b : DocRow, docKeyLt (docRowKey b) (docRowKey a) = true →
      ¬ docKeyLt (docRowKey a) (docRowKey b) = true := by
    intro a b hab hba
    rw [docKeyLt_asymm hab] at hba
    exact Bool.false_ne_true hba
  apply @eq_of_perm_of_pairwise _
    (fun a b : DocRow => docKeyLt (docRowKey b) (docRowKey a) = true) hasymmP
  · exact (List.mergeSort_perm l _).trans l.reverse_perm.symm
  · have hle := @List.sorted_mergeSort _
      (fun a b : DocRow => !(docKeyLt (docRowKey a) (docRowKey b)))
      descRowLe_trans descRowLe_total l
    have hne : (l.mergeSort (fun a b => !(docKeyLt (docRowKey a) (docRowKey b)))).Pairwise
        (fun a b : DocRow => docRowKey a ≠ docRowKey b) := by
      refine ((List.mergeSort_perm l _).pairwise_iff ?_).mpr ?_
      · intro a b hab
        exact hab.symm
      · refine h.imp ?_
        intro a b hab hc
        rw [hc, docKeyLt_irrefl] at hab
        exact Bool.false_ne_true hab
    refine (hle.and hne).imp ?_
    intro a b hab
    cases hv : docKeyLt (docRowKey b) (docRowKey a) with
    | true => rfl
    | false =>
      have h1 : docKeyLt (docRowKey a) (docRowKey b) = false := by
        have := hab.1
        simpa using this
      exact absurd (docKeyLt_connex h1 hv) hab.2
  · rw [List.pairwise_reverse]
    exact h

/-- The ascending page loop over a strictly sorted documents table emits
exactly the rows past the cursor and below the upper timestamp bound, in
table order, once the fuel exceeds the number of such rows. -/
theorem loadDocsLoopAsc_spec (docs : List DocRow) (maxTs : Int) (n : Nat) (hn : 1 ≤ n)
    (hsorted : docs.Pairwise fun a b => docKeyLt (docRowKey a) (docRowKey b) = true) :
    ∀ fuel c,
      (docs.filter fun r => docKeyLt c (docRowKey r) && decide (r.ts < maxTs)).length < fuel →
      loadDocsLoopAsc docs maxTs n fuel c =
        docs.filter fun r => docKeyLt c (docRowKey r) && decide (r.ts < maxTs) := by
  intro fuel
  induction fuel with
  | zero =>
    intro c h
    omega
  | succ f ih =>
    intro c hlen
    have hremsorted : (docs.filter fun r =>
        docKeyLt c (docRowKey r) && decide (r.ts < maxTs)).Pairwise
        fun a b => docKeyLt (docRowKey a) (docRowKey b) = true :=
      hsorted.filter _
    have hpage : loadDocsPageAsc docs c maxTs n =
        (docs.filter fun r => docKeyLt c (docRowKey r) && decide (r.ts < maxTs)).take n := by
      unfold loadDocsPageAsc
      rw [mergeSort_asc_of_sorted hremsorted]
    set rem := docs.filter (fun r => docKeyLt c (docRowKey r) && decide (r.ts < maxTs))
      with hrem
    show loadDocsLoopAsc docs maxTs n (f + 1) c = rem
    unfold loadDocsLoopAsc
    rw [hpage]
    by_cases hshort : (rem.take n).length < n
    · simp only [hshort, if_true]
      have hlt : rem.length < n := by
        rw [List.length_take] at hshort
        omega
      exact List.take_of_length_le (Nat.le_of_lt hlt)
    · simp only [hshort, if_false]
      have hlenpage : (rem.take n).length = n := by
        rw [List.length_take] at hshort ⊢
        omega
      cases hlast : (rem.take n).getLast? with
      | none =>
        rw [List.getLast?_eq_none_iff] at hlast
        rw [hlast] at hlenpage
        simp at hlenpage
        omega
      | some last =>
        obtain ⟨A, hA⟩ := List.getLast?_eq_some_iff.mp hlast
        have hsplit : rem = A ++ last :: rem.drop n := by
          conv_lhs => rw [← List.take_append_drop n rem]
          rw [hA, List.append_assoc]
          rfl
        have hlastmem : last ∈ rem := by
          rw [hsplit]
          simp
        have hclast : docKeyLt c (docRowKey last) = true := by
          rw [hrem, List.mem_filter] at hlastmem
          have := hlastmem.2
          rw [Bool.and_eq_true] at this
          exact this.1
        have hnewrem : (docs.filter fun r =>
            docKeyLt (docRowKey last) (docRowKey r) && decide (r.ts < maxTs)) =
            rem.drop n := by
          have h1 : (docs.filter fun r =>
              docKeyLt (docRowKey last) (docRowKey r) && decide (r.ts < maxTs)) =
              rem.filter fun r => docKeyLt (docRowKey last) (docRowKey r) := by
            rw [hrem, List.filter_filter]
            apply List.filter_congr
            intro r _
            cases hv : docKeyLt (docRowKey last) (docRowKey r) with
            | false => simp [hv]
            | true => simp [hv, docKeyLt_trans hclast hv]
          rw [h1]
          have h2 := filter_above_middle
            (fun a b : DocRow => docKeyLt (docRowKey a) (docRowKey b))
            (fun a b hab => docKeyLt_asymm hab) A (rem.drop n) last
            (hsplit ▸ hremsorted)
          conv_lhs => rw [hsplit]
          exact h2
        have hlenrec : (docs.filter fun r =>
            docKeyLt (docRowKey last) (docRowKey r) && decide (r.ts < maxTs)).length < f := by
          rw [hnewrem, List.length_drop]
          have h3 : rem.length < f + 1 := hlen
          have hnn : n ≤ rem.length := by
            rw [List.length_take] at hlenpage
            omega
          omega
        show rem.take n ++ loadDocsLoopAsc docs maxTs n f (docRowKey last) = rem
        rw [ih (docRowKey last) hlenrec, hnewrem]
        exact List.take_append_drop n rem

/-- The descending page loop over a strictly sorted documents table emits
exactly the rows below the cursor and at or above the lower timestamp bound,
in reverse table order, once the fuel exceeds the number of such rows. -/
theorem loadDocsLoopDesc_spec (docs : List DocRow) (minTs : Int) (n : Nat) (hn : 1 ≤ n)
    (hsorted : docs.Pairwise fun a b => docKeyLt (docRowKey a) (docRowKey b) = true) :
    ∀ fuel c,
      (docs.filter fun r => decide (minTs ≤ r.ts) && docKeyLt (docRowKey r) c).length < fuel →
      loadDocsLoopDesc docs minTs n fuel c =
        (docs.filter fun r => decide (minTs ≤ r.ts) && docKeyLt (docRowKey r) c).reverse := by
  intro fuel
  induction fuel with
  | zero =>
    intro c h
    omega
  | succ f ih =>
    intro c hlen
    have hremsorted : (docs.filter fun r =>
        decide (minTs ≤ r.ts) && docKeyLt (docRowKey r) c).Pairwise
        fun a b => docKeyLt (docRowKey a) (docRowKey b) = true :=
      hsorted.filter _
    have hpage : loadDocsPageDesc docs minTs c n =
        ((docs.filter fun r => decide (minTs ≤ r.ts) && docKeyLt (docRowKey r) c).reverse).take
          n := by
      unfold loadDocsPageDesc
      rw [mergeSort_desc_of_sorted hremsorted]
    set rem := docs.filter (fun r => decide (minTs ≤ r.ts) && docKeyLt (docRowKey r) c)
      with hrem
    show loadDocsLoopDesc docs minTs n (f + 1) c = rem.reverse
    unfold loadDocsLoopDesc
    rw [hpage]
    by_cases hshort : (rem.reverse.take n).length < n
    · simp only [hshort, if_true]
      have hlt : rem.reverse.length < n := by
        rw [List.length_take] at hshort
        omega
      exact List.take_of_length_le (Nat.le_of_lt hlt)
    · simp only [hshort, if_false]
      have hlenpage : (rem.reverse.take n).length = n := by
        rw [List.length_take] at hshort ⊢
        omega
      cases hlast : (rem.reverse.take n).getLast? with
      | none =>
        rw [List.getLast?_eq_none_iff] at hlast
        rw [hlast] at hlenpage
        simp at hlenpage
        omega
      | some last =>
        obtain ⟨A, hA⟩ := List.getLast?_eq_some_iff.mp hlast
        have hsplit : rem.reverse = A ++ last :: rem.reverse.drop n := by
          conv_lhs => rw [← List.take_append_drop n rem.reverse]
          rw [hA, List.append_assoc]
          rfl
        have hlastmem : last ∈ rem := by
          rw [← List.mem_reverse, hsplit]
          simp
        have hclast : docKeyLt (docRowKey last) c = true := by
          rw [hrem, List.mem_filter] at hlastmem
          have := hlastmem.2
          rw [Bool.and_eq_true] at this
          exact this.2
        have hrevsorted : rem.reverse.Pairwise
            fun a b => docKeyLt (docRowKey b) (docRowKey a) = true := by
          rw [List.pairwise_reverse]
          exact hremsorted
        have hnewrem : (docs.filter fun r =>
            decide (minTs ≤ r.ts) && docKeyLt (docRowKey r) (docRowKey last)) =
            (rem.reverse.drop n).reverse := by
          have h1 : (docs.filter fun r =>
              decide (minTs ≤ r.ts) && docKeyLt (docRowKey r) (docRowKey last)) =
              rem.filter fun r => docKeyLt (docRowKey r) (docRowKey last) := by
            rw [hrem, List.filter_filter]
            apply List.filter_congr
            intro r _
            cases hv : docKeyLt (docRowKey r) (docRowKey last) with
            | false => simp [hv]
            | true => simp [hv, docKeyLt_trans hv hclast]
          have h2 := filter_above_middle
            (fun a b : DocRow => docKeyLt (docRowKey b) (docRowKey a))
            (fun a b hab => docKeyLt_asymm hab) A (rem.reverse.drop n) last
            (hsplit ▸ hrevsorted)
          have h3 : rem.reverse.filter
              (fun r => docKeyLt (docRowKey r) (docRowKey last)) = rem.reverse.drop n := by
            conv_lhs => rw [hsplit]
            exact h2
          rw [h1]
          have h4 := congrArg List.reverse h3
          rw [List.filter_reverse, List.reverse_reverse] at h4
          exact h4
        have hlenrec : (docs.filter fun r =>
            decide (minTs ≤ r.ts) && docKeyLt (docRowKey r) (docRowKey last)).length < f := by
          rw [hnewrem, List.length_reverse, List.length_drop, List.length_reverse]
          have h3 : rem.length < f + 1 := hlen
          have hnn : n ≤ rem.length := by
            rw [List.length_take, List.length_reverse] at hlenpage
            omega
          omega
        show rem.reverse.take n ++ loadDocsLoopDesc docs minTs n f (docRowKey last) =
          rem.reverse
        rw [ih (docRowKey last) hlenrec, hnewrem, List.reverse_reverse]
        exact List.take_append_drop n rem.reverse

/-- C8: `load_documents` paginates on the `(ts, table_id, id)` cursor with
asymmetric initial sentinels: the ascending scan's exclusive start cursor
`(ts_min − 1, AFTER_ALL, AFTER_ALL)` under strict tuple-greater admits
exactly the rows with `ts ≥ ts_min`, the descending scan's exclusive start
cursor `(ts_max, BEFORE_ALL, BEFORE_ALL)` under strict tuple-less admits
exactly the rows with `ts < ts_max`, every page requests exactly `page_size`
rows advancing the cursor to the last row fetched, and the scan — which
stops exactly when a page comes back short — emits the full contents of the
half-open timestamp range in the requested order. -/
theorem C8_load_documents_pagination (docs : List DocRow) (minTs maxTs : Int) (n : Nat)
    (hvalid : ∀ r ∈ docs, validDocRow r)
    (hsorted : docs.Pairwise fun a b => docKeyLt (docRowKey a) (docRowKey b) = true)
    (hn : 1 ≤ n) :
    (∀ r ∈ docs,
      docKeyLt (minTs - 1, afterAllBytes, afterAllBytes) (docRowKey r) =
        decide (minTs ≤ r.ts)) ∧
    (∀ r ∈ docs,
      docKeyLt (docRowKey r) (maxTs, beforeAllBytes, beforeAllBytes) =
        decide (r.ts < maxTs)) ∧
    loadDocumentsAsc docs minTs maxTs n =
      docs.filter (fun r => decide (minTs ≤ r.ts) && decide (r.ts < maxTs)) ∧
    loadDocumentsDesc docs minTs maxTs n =
      (docs.filter (fun r => decide (minTs ≤ r.ts) && decide (r.ts < maxTs))).reverse := by
  refine ⟨fun r hr => ascInitialCursor minTs r (hvalid r hr),
    fun r hr => descInitialCursor maxTs r (hvalid r hr), ?_, ?_⟩
  · unfold loadDocumentsAsc
    rw [loadDocsLoopAsc_spec docs maxTs n hn hsorted (docs.length + 1)
      (minTs - 1, afterAllBytes, afterAllBytes)
      (Nat.lt_succ_of_le (List.length_filter_le _ _))]
    apply List.filter_congr
    intro r hr
    rw [ascInitialCursor minTs r (hvalid r hr)]
  · unfold loadDocumentsDesc
    rw [loadDocsLoopDesc_spec docs minTs n hn hsorted (docs.length + 1)
      (maxTs, beforeAllBytes, beforeAllBytes)
      (Nat.lt_succ_of_le (List.length_filter_le _ _))]
    congr 1
    apply List.filter_congr
    intro r hr
    rw [descInitialCursor maxTs r (hvalid r hr)]

/-- C8 witness: a two-row table paged with `page_size = 1` over the range
`[1, 3)` in both directions. -/
theorem C8_load_documents_pagination_witness :
    loadDocumentsAsc
      [ { id := List.replicate 16 0, tableId := List.replicate 16 0, ts := 1
          jsonValue := "a", deleted := false, prevTs := none }
      , { id := List.replicate 16 1, tableId := List.replicate 16 0, ts := 2
          jsonValue := "b", deleted := false, prevTs := none } ] 1 3 1 =
      List.filter (fun r => decide ((1 : Int) ≤ r.ts) && decide (r.ts < 3))
        [ { id := List.replicate 16 0, tableId := List.replicate 16 0, ts := 1
            jsonValue := "a", deleted := false, prevTs := none }
        , { id := List.replicate 16 1, tableId := List.replicate 16 0, ts := 2
            jsonValue := "b", deleted := false, prevTs := none } ] ∧
    loadDocumentsDesc
      [ { id := List.replicate 16 0, tableId := List.replicate 16 0, ts := 1
          jsonValue := "a", deleted := false, prevTs := none }
      , { id := List.replicate 16 1, tableId := List.replicate 16 0, ts := 2
          jsonValue := "b", deleted := false, prevTs := none } ] 1 3 1 =
      (List.filter (fun r => decide ((1 : Int) ≤ r.ts) && decide (r.ts < 3))
        [ { id := List.replicate 16 0, tableId := List.replicate 16 0, ts := 1
            jsonValue := "a", deleted := false, prevTs := none }
        , { id := List.replicate 16 1, tableId := List.replicate 16 0, ts := 2
            jsonValue := "b", deleted := false, prevTs := none } ]).reverse := by
  have h := C8_load_documents_pagination
    [ { id := List.replicate 16 0, tableId := List.replicate 16 0, ts := 1
        jsonValue := "a", deleted := false, prevTs := none }
    , { id := List.replicate 16 1, tableId := List.replicate 16 0, ts := 2
        jsonValue := "b", deleted := false, prevTs := none } ] 1 3 1
    (by decide) (by decide) (by decide)
  exact ⟨h.2.2.1, h.2.2.2⟩

/-! ## Lemmas about the streaming traces -/

/-- Splitting a concatenation at a distinguished element: the element lies in
the first part, or in the second with the split point beyond the first. -/
theorem append_cons_split {α : Type} :
    ∀ {block tail l1 l2 : List α} {x : α}, block ++ tail = l1 ++ x :: l2 →
      (∃ b2, block = l1 ++ x :: b2) ∨
        (∃ l1', tail = l1' ++ x :: l2 ∧ l1 = block ++ l1') := by
  intro block
  induction block with
  | nil =>
    intro tail l1 l2 x h
    exact Or.inr ⟨l1, h, rfl⟩
  | cons b bs ih =>
    intro tail l1 l2 x h
    cases l1 with
    | nil =>
      simp only [List.nil_append, List.cons_append, List.cons.injEq] at h
      exact Or.inl ⟨bs, by rw [h.1]; rfl⟩
    | cons c cs =>
      simp only [List.cons_append, List.cons.injEq] at h
      rcases ih h.2 with ⟨b2, hb⟩ | ⟨l1', ht, hl⟩
      · exact Or.inl ⟨b2, by rw [h.1, hb]; rfl⟩
      · exact Or.inr ⟨l1', ht, by rw [h.1, hl]; rfl⟩

/-- Every entry emitted by a buffer flush was in the buffer. -/
theorem flushSortFilter_subset {α : Type} (o : Order) (iv : KeyInterval)
    (buf : List (ScanEntry α)) :
    ∀ e ∈ flushSortFilter o iv buf, e ∈ buf := by
  intro e he
  unfold flushSortFilter at he
  have h1 := List.mem_filter.mp he
  have h2 := h1.1
  cases o with
  | asc =>
    simp only [Order.apply] at h2
    exact List.mem_mergeSort.mp h2
  | desc =>
    simp only [Order.apply] at h2
    rw [List.mem_reverse] at h2
    exact List.mem_mergeSort.mp h2


/-- The flush step either flushes the whole buffer or keeps it. -/
theorem scanFlushStep_cases {α : Type} (o : Order) (iv : KeyInterval)
    (buf : List (ScanEntry α)) (r : IndexRowFetched α) :
    scanFlushStep o iv buf r = (flushSortFilter o iv buf, []) ∨
    scanFlushStep o iv buf r = ([], buf) := by
  unfold scanFlushStep
  cases buf with
  | nil => simp
  | cons e bs =>
    by_cases h : e.key.take maxIndexKeyPfxLen ≠ r.keyPfx
    · simp [h]
    · simp [h]

/-- Entries emitted by the flush step come from the buffer. -/
theorem scanFlushStep_fst_subset {α : Type} (o : Order) (iv : KeyInterval)
    (buf : List (ScanEntry α)) (r : IndexRowFetched α) :
    ∀ e ∈ (scanFlushStep o iv buf r).1, e ∈ buf := by
  intro e he
  rcases scanFlushStep_cases o iv buf r with h | h
  · rw [h] at he
    exact flushSortFilter_subset o iv buf e he
  · rw [h] at he
    simp at he

/-- Entries kept by the flush step come from the buffer. -/
theorem scanFlushStep_snd_subset {α : Type} (o : Order) (iv : KeyInterval)
    (buf : List (ScanEntry α)) (r : IndexRowFetched α) :
    ∀ e ∈ (scanFlushStep o iv buf r).2, e ∈ buf := by
  intro e he
  rcases scanFlushStep_cases o iv buf r with h | h
  · rw [h] at he
    simp at he
  · rw [h] at he
    exact he

/-- Every entry the scan loop emits or leaves buffered comes from the initial
buffer or carries the payload of one of the processed rows. -/
theorem scanRows_sources {α : Type} (o : Order) (iv : KeyInterval) :
    ∀ (rows : List (IndexRowFetched α)) (buf : List (ScanEntry α)),
      (∀ e ∈ (scanRows o iv buf rows).1,
        e ∈ buf ∨ e.data ∈ rows.map (fun x => x.data)) ∧
      (∀ e ∈ (scanRows o iv buf rows).2.1,
        e ∈ buf ∨ e.data ∈ rows.map (fun x => x.data)) := by
  intro rows
  induction rows with
  | nil =>
    intro buf
    constructor
    · intro e he
      simp [scanRows] at he
    · intro e he
      simp only [scanRows] at he
      exact Or.inl he
  | cons r rs ih =>
    intro buf
    have hcont : ∀ buf1 : List (ScanEntry α),
        (∀ e ∈ buf1, e ∈ buf ∨ e.data = r.data) →
        (∀ e ∈ (scanRows o iv buf1 rs).1,
          e ∈ buf ∨ e.data ∈ (r :: rs).map (fun x => x.data)) ∧
        (∀ e ∈ (scanRows o iv buf1 rs).2.1,
          e ∈ buf ∨ e.data ∈ (r :: rs).map (fun x => x.data)) := by
      intro buf1 hsub
      constructor <;> intro e he
      · rcases (ih buf1).1 e he with h | h
        · rcases hsub e h with h2 | h2
          · exact Or.inl h2
          · right
            simp only [List.map_cons, List.mem_cons]
            exact Or.inl h2
        · right
          simp only [List.map_cons, List.mem_cons]
          exact Or.inr h
      · rcases (ih buf1).2 e he with h | h
        · rcases hsub e h with h2 | h2
          · exact Or.inl h2
          · right
            simp only [List.map_cons, List.mem_cons]
            exact Or.inl h2
        · right
          simp only [List.map_cons, List.mem_cons]
          exact Or.inr h
    have hflush1 : ∀ e ∈ (scanFlushStep o iv buf r).1, e ∈ buf :=
      scanFlushStep_fst_subset o iv buf r
    have hflush2 : ∀ e ∈ (scanFlushStep o iv buf r).2, e ∈ buf ∨ e.data = r.data :=
      fun e he => Or.inl (scanFlushStep_snd_subset o iv buf r e he)
    simp only [scanRows]
    cases hdel : r.deleted with
    | true =>
      simp only [if_true]
      constructor
      · intro e he
        rcases List.mem_append.mp he with h | h
        · exact Or.inl (hflush1 e h)
        · exact (hcont _ hflush2).1 e h
      · intro e he
        exact (hcont _ hflush2).2 e he
    | false =>
      simp only [Bool.false_eq_true, if_false]
      by_cases hshort : (fetchedFullKey r).length < maxIndexKeyPfxLen
      · simp only [hshort, if_true]
        constructor
        · intro e he
          rcases List.mem_append.mp he with h | h
          · rcases List.mem_append.mp h with h2 | h2
            · exact Or.inl (hflush1 e h2)
            · by_cases hc : intervalContains iv (fetchedFullKey r) = true
              · rw [if_pos hc] at h2
                simp at h2
                right
                simp only [List.map_cons, List.mem_cons]
                left
                rw [h2]
              · rw [if_neg hc] at h2
                simp at h2
          · exact (hcont _ hflush2).1 e h
        · intro e he
          exact (hcont _ hflush2).2 e he
      · simp only [hshort, if_false]
        have hsub2 : ∀ e ∈ (scanFlushStep o iv buf r).2 ++
            [ScanEntry.mk (fetchedFullKey r) r.data], e ∈ buf ∨ e.data = r.data := by
          intro e he
          rcases List.mem_append.mp he with h | h
          · exact Or.inl (scanFlushStep_snd_subset o iv buf r e h)
          · simp at h
            right
            rw [h]
        constructor
        · intro e he
          rcases List.mem_append.mp he with h | h
          · exact Or.inl (hflush1 e h)
          · exact (hcont _ hsub2).1 e h
        · intro e he
          exact (hcont _ hsub2).2 e he

/-- In a document-log stream trace, a yielded row of origin page `j` implies
every page up to `j` validated successfully. -/
theorem loadDocumentsTrace_yield_ok {ρ : Type} (ps : Nat) (ok : Nat → Bool) :
    ∀ (pages : List (List ρ)) (i0 j : Nat) (r : ρ),
      ScanEvent.yieldRow j r ∈ loadDocumentsTrace ps ok i0 pages →
      ∀ k, i0 ≤ k → k ≤ j → ok k = true := by
  intro pages
  induction pages with
  | nil =>
    intro i0 j r h
    simp [loadDocumentsTrace] at h
  | cons page rest ih =>
    intro i0 j r h k hk1 hk2
    simp only [loadDocumentsTrace] at h
    rcases List.mem_cons.mp h with h1 | h
    · exact absurd h1 (by simp)
    rcases List.mem_cons.mp h with h1 | h
    · exact absurd h1 (by simp)
    cases hok : ok i0 with
    | false =>
      rw [hok] at h
      simp at h
    | true =>
      rw [hok] at h
      simp only [if_true] at h
      rcases List.mem_cons.mp h with h1 | h
      · exact absurd h1 (by simp)
      rcases List.mem_append.mp h with h1 | h1
      · have hj : j = i0 := by
          rcases List.mem_map.mp h1 with ⟨p, _, he⟩
          cases he
          rfl
        have : k = i0 := by omega
        rw [this]
        exact hok
      · by_cases hshort : page.length < ps
        · rw [if_pos hshort] at h1
          simp at h1
        · rw [if_neg hshort] at h1
          by_cases hki : k = i0
          · rw [hki]
            exact hok
          · exact ih (i0 + 1) j r h1 k (by omega) hk2

/-- In a document-log stream trace, every yielded row of origin page `j` is
preceded by that page's fetch, connection release and successful retention
validation. -/
theorem loadDocumentsTrace_yield_after_validate {ρ : Type} (ps : Nat) (ok : Nat → Bool) :
    ∀ (pages : List (List ρ)) (i0 : Nat) (l1 l2 : List (ScanEvent ρ)) (j : Nat) (r : ρ),
      loadDocumentsTrace ps ok i0 pages = l1 ++ ScanEvent.yieldRow j r :: l2 →
      ScanEvent.validateSnapshot j true ∈ l1 ∧ ScanEvent.releaseConn j ∈ l1 ∧
        ScanEvent.fetchPage j ∈ l1 := by
  intro pages
  induction pages with
  | nil =>
    intro i0 l1 l2 j r h
    simp only [loadDocumentsTrace] at h
    exact absurd h.symm (by simp)
  | cons page rest ih =>
    intro i0 l1 l2 j r h
    simp only [loadDocumentsTrace] at h
    cases l1 with
    | nil => simp at h
    | cons e1 l1a =>
      simp only [List.cons_append, List.cons.injEq] at h
      obtain ⟨he1, h⟩ := h
      cases l1a with
      | nil => simp at h
      | cons e2 l1b =>
        simp only [List.cons_append, List.cons.injEq] at h
        obtain ⟨he2, h⟩ := h
        by_cases hok : ok i0 = true
        · rw [if_pos hok] at h
          cases l1b with
          | nil => simp at h
          | cons e3 l1c =>
            simp only [List.cons_append, List.cons.injEq] at h
            obtain ⟨he3, h⟩ := h
            rcases append_cons_split h with ⟨b2, hb⟩ | ⟨l1', ht, hl⟩
            · have hj : j = i0 := by
                have hmem : ScanEvent.yieldRow j r ∈ page.map (ScanEvent.yieldRow i0) := by
                  rw [hb]
                  simp
                rcases List.mem_map.mp hmem with ⟨p, _, he⟩
                cases he
                rfl
              subst hj
              rw [he1, he2, he3]
              refine ⟨by simp, by simp, by simp⟩
            · by_cases hshort : page.length < ps
              · rw [if_pos hshort] at ht
                exact absurd ht.symm (by simp)
              · rw [if_neg hshort] at ht
                have hih := ih (i0 + 1) l1' l2 j r ht
                rw [hl]
                refine ⟨?_, ?_, ?_⟩
                · simp only [List.mem_cons, List.mem_append]
                  right; right; right; right
                  exact hih.1
                · simp only [List.mem_cons, List.mem_append]
                  right; right; right; right
                  exact hih.2.1
                · simp only [List.mem_cons, List.mem_append]
                  right; right; right; right
                  exact hih.2.2
        · rw [if_neg hok] at h
          have hmem : ScanEvent.yieldRow j r ∈
              ([ScanEvent.validateSnapshot i0 false, ScanEvent.streamError] :
                List (ScanEvent ρ)) := by
            rw [h]
            simp
          simp at hmem

/-- In a document-log stream trace, every retention-validation call for page
`j` is preceded by that page's fetch and connection release. -/
theorem loadDocumentsTrace_validate_after_release {ρ : Type} (ps : Nat) (ok : Nat → Bool) :
    ∀ (pages : List (List ρ)) (i0 : Nat) (l1 l2 : List (ScanEvent ρ)) (j : Nat) (b : Bool),
      loadDocumentsTrace ps ok i0 pages = l1 ++ ScanEvent.validateSnapshot j b :: l2 →
      ScanEvent.releaseConn j ∈ l1 ∧ ScanEvent.fetchPage j ∈ l1 := by
  intro pages
  induction pages with
  | nil =>
    intro i0 l1 l2 j b h
    simp only [loadDocumentsTrace] at h
    exact absurd h.symm (by simp)
  | cons page rest ih =>
    intro i0 l1 l2 j b h
    simp only [loadDocumentsTrace] at h
    cases l1 with
    | nil => simp at h
    | cons e1 l1a =>
      simp only [List.cons_append, List.cons.injEq] at h
      obtain ⟨he1, h⟩ := h
      cases l1a with
      | nil => simp at h
      | cons e2 l1b =>
        simp only [List.cons_append, List.cons.injEq] at h
        obtain ⟨he2, h⟩ := h
        by_cases hok : ok i0 = true
        · rw [if_pos hok] at h
          cases l1b with
          | nil =>
            simp only [List.nil_append, List.cons.injEq] at h
            obtain ⟨hv, _⟩ := h
            have hj : i0 = j := by
              cases hv
              rfl
            subst hj
            rw [he1, he2]
            exact ⟨by simp, by simp⟩
          | cons e3 l1c =>
            simp only [List.cons_append, List.cons.injEq] at h
            obtain ⟨he3, h⟩ := h
            rcases append_cons_split h with ⟨b2, hb⟩ | ⟨l1', ht, hl⟩
            · have hmem : ScanEvent.validateSnapshot j b ∈
                  page.map (ScanEvent.yieldRow i0) := by
                rw [hb]
                simp
              rcases List.mem_map.mp hmem with ⟨p, _, he⟩
              cases he
            · by_cases hshort : page.length < ps
              · rw [if_pos hshort] at ht
                exact absurd ht.symm (by simp)
              · rw [if_neg hshort] at ht
                have hih := ih (i0 + 1) l1' l2 j b ht
                rw [hl]
                constructor
                · simp only [List.mem_cons, List.mem_append]
                  right; right; right; right
                  exact hih.1
                · simp only [List.mem_cons, List.mem_append]
                  right; right; right; right
                  exact hih.2
        · rw [if_neg hok] at h
          cases l1b with
          | nil =>
            simp only [List.nil_append, List.cons.injEq] at h
            obtain ⟨hv, _⟩ := h
            have hj : i0 = j := by
              cases hv
              rfl
            subst hj
            rw [he1, he2]
            exact ⟨by simp, by simp⟩
          | cons e3 l1c =>
            simp only [List.cons_append, List.cons.injEq] at h
            obtain ⟨he3, h⟩ := h
            have hmem : ScanEvent.validateSnapshot j b ∈
                ([ScanEvent.streamError] : List (ScanEvent ρ)) := by
              rw [h]
              simp
            simp at hmem

/-- Entries flowing out of a page's row processing carry origin tags at most
the current page index. -/
theorem scanRows_tags_le (o : Order) (iv : KeyInterval) (i : Nat)
    (buf : List (ScanEntry Nat)) (page : List (IndexRowFetched Unit))
    (hbuf : ∀ e ∈ buf, e.data < i) :
    (∀ e ∈ (scanRows o iv buf (tagRows i page)).1, e.data ≤ i) ∧
    (∀ e ∈ (scanRows o iv buf (tagRows i page)).2.1, e.data ≤ i) := by
  have hs := scanRows_sources o iv (tagRows i page) buf
  have htag : ∀ d ∈ (tagRows i page).map (fun x => x.data), d = i := by
    intro d hd
    rcases List.mem_map.mp hd with ⟨x, hx, he⟩
    unfold tagRows at hx
    rcases List.mem_map.mp hx with ⟨y, _, hy⟩
    rw [← he, ← hy]
  constructor
  · intro e he
    rcases hs.1 e he with h | h
    · exact Nat.le_of_lt (hbuf e h)
    · rw [htag e.data h]
  · intro e he
    rcases hs.2 e he with h | h
    · exact Nat.le_of_lt (hbuf e h)
    · rw [htag e.data h]

/-- In an index-scan trace, a yielded entry of origin page `j` implies every
page from the start of the trace up to `j` validated successfully. -/
theorem indexScanTrace_yield_ok (o : Order) (iv : KeyInterval) (bs : Nat)
    (ok : Nat → Bool) :
    ∀ (pages : List (List (IndexRowFetched Unit))) (i0 : Nat)
      (buf : List (ScanEntry Nat)), (∀ e ∈ buf, e.data < i0) →
      ∀ (j : Nat) (e : ScanEntry Nat),
        ScanEvent.yieldRow j e ∈ indexScanTrace o iv bs ok i0 buf pages →
        j < i0 ∨ ∀ k, i0 ≤ k → k ≤ j → ok k = true := by
  intro pages
  induction pages with
  | nil =>
    intro i0 buf hbuf j e h
    simp only [indexScanTrace] at h
    rcases List.mem_map.mp h with ⟨e', he', heq⟩
    have h1 : e'.data = j := by cases heq; rfl
    left
    rw [← h1]
    exact hbuf e' (flushSortFilter_subset o iv buf e' he')
  | cons page rest ih =>
    intro i0 buf hbuf j e h
    have htags := scanRows_tags_le o iv i0 buf page hbuf
    simp only [indexScanTrace] at h
    rcases List.mem_cons.mp h with h1 | h
    · exact absurd h1 (by simp)
    rcases List.mem_cons.mp h with h1 | h
    · exact absurd h1 (by simp)
    by_cases hok : ok i0 = true
    · rw [if_pos hok] at h
      rcases List.mem_cons.mp h with h1 | h
      · exact absurd h1 (by simp)
      rcases List.mem_append.mp h with h1 | h1
      · rcases List.mem_map.mp h1 with ⟨e', he', heq⟩
        have hd : e'.data = j := by cases heq; rfl
        have hle : j ≤ i0 := hd ▸ htags.1 e' he'
        rcases Nat.lt_or_ge j i0 with hlt | hge
        · exact Or.inl hlt
        · have hj : j = i0 := Nat.le_antisymm hle hge
          right
          intro k hk1 hk2
          have : k = i0 := by omega
          rw [this]
          exact hok
      · by_cases hshort : page.length < bs
        · rw [if_pos hshort] at h1
          rcases List.mem_map.mp h1 with ⟨e', he', heq⟩
          have hd : e'.data = j := by cases heq; rfl
          have hle : j ≤ i0 :=
            hd ▸ htags.2 e' (flushSortFilter_subset o iv _ e' he')
          rcases Nat.lt_or_ge j i0 with hlt | hge
          · exact Or.inl hlt
          · have hj : j = i0 := Nat.le_antisymm hle hge
            right
            intro k hk1 hk2
            have : k = i0 := by omega
            rw [this]
            exact hok
        · rw [if_neg hshort] at h1
          have hbuf' : ∀ e' ∈ (scanRows o iv buf (tagRows i0 page)).2.1,
              e'.data < i0 + 1 := by
            intro e' he'
            exact Nat.lt_succ_of_le (htags.2 e' he')
          rcases ih (i0 + 1) _ hbuf' j e h1 with hlt | hall
          · rcases Nat.lt_or_ge j i0 with h2 | h2
            · exact Or.inl h2
            · have hj : j = i0 := by omega
              right
              intro k hk1 hk2
              have : k = i0 := by omega
              rw [this]
              exact hok
          · right
            intro k hk1 hk2
            by_cases hki : k = i0
            · rw [hki]
              exact hok
            · exact hall k (by omega) hk2
    · rw [if_neg hok] at h
      simp at h

/-- In an index-scan trace, every yielded entry of origin page `j` at or past
the trace start is preceded by page `j`'s fetch, connection release and
successful retention validation. -/
theorem indexScanTrace_yield_after_validate (o : Order) (iv : KeyInterval) (bs : Nat)
    (ok : Nat → Bool) :
    ∀ (pages : List (List (IndexRowFetched Unit))) (i0 : Nat)
      (buf : List (ScanEntry Nat)), (∀ e ∈ buf, e.data < i0) →
      ∀ (l1 l2 : List (ScanEvent (ScanEntry Nat))) (j : Nat) (e : ScanEntry Nat),
        indexScanTrace o iv bs ok i0 buf pages = l1 ++ ScanEvent.yieldRow j e :: l2 →
        j < i0 ∨ (ScanEvent.validateSnapshot j true ∈ l1 ∧
          ScanEvent.releaseConn j ∈ l1 ∧ ScanEvent.fetchPage j ∈ l1) := by
  intro pages
  induction pages with
  | nil =>
    intro i0 buf hbuf l1 l2 j e h
    simp only [indexScanTrace] at h
    have hmem : ScanEvent.yieldRow j e ∈
        (flushSortFilter o iv buf).map fun e' => ScanEvent.yieldRow e'.data e' := by
      rw [h]
      simp
    rcases List.mem_map.mp hmem with ⟨e', he', heq⟩
    have hd : e'.data = j := by cases heq; rfl
    left
    rw [← hd]
    exact hbuf e' (flushSortFilter_subset o iv buf e' he')
  | cons page rest ih =>
    intro i0 buf hbuf l1 l2 j e h
    have htags := scanRows_tags_le o iv i0 buf page hbuf
    simp only [indexScanTrace] at h
    cases l1 with
    | nil => simp at h
    | cons e1 l1a =>
      simp only [List.cons_append, List.cons.injEq] at h
      obtain ⟨he1, h⟩ := h
      cases l1a with
      | nil => simp at h
      | cons e2 l1b =>
        simp only [List.cons_append, List.cons.injEq] at h
        obtain ⟨he2, h⟩ := h
        by_cases hok : ok i0 = true
        · rw [if_pos hok] at h
          cases l1b with
          | nil => simp at h
          | cons e3 l1c =>
            simp only [List.cons_append, List.cons.injEq] at h
            obtain ⟨he3, h⟩ := h
            have hcase : j ≤ i0 → j < i0 ∨
                (ScanEvent.validateSnapshot j true ∈ e1 :: e2 :: e3 :: l1c ∧
                  ScanEvent.releaseConn j ∈ e1 :: e2 :: e3 :: l1c ∧
                  ScanEvent.fetchPage j ∈ e1 :: e2 :: e3 :: l1c) := by
              intro hle
              rcases Nat.lt_or_ge j i0 with hlt | hge
              · exact Or.inl hlt
              · have hj : j = i0 := Nat.le_antisymm hle hge
                subst hj
                rw [he1, he2, he3]
                exact Or.inr ⟨by simp, by simp, by simp⟩
            rcases append_cons_split h with ⟨b2, hb⟩ | ⟨l1', ht, hl⟩
            · have hmem : ScanEvent.yieldRow j e ∈
                  (scanRows o iv buf (tagRows i0 page)).1.map
                    (fun e' => ScanEvent.yieldRow e'.data e') := by
                rw [hb]
                simp
              rcases List.mem_map.mp hmem with ⟨e', he', heq⟩
              have hd : e'.data = j := by cases heq; rfl
              exact hcase (hd ▸ htags.1 e' he')
            · by_cases hshort : page.length < bs
              · rw [if_pos hshort] at ht
                have hmem : ScanEvent.yieldRow j e ∈
                    (flushSortFilter o iv (scanRows o iv buf (tagRows i0 page)).2.1).map
                      (fun e' => ScanEvent.yieldRow e'.data e') := by
                  rw [ht]
                  simp
                rcases List.mem_map.mp hmem with ⟨e', he', heq⟩
                have hd : e'.data = j := by cases heq; rfl
                exact hcase (hd ▸ htags.2 e' (flushSortFilter_subset o iv _ e' he'))
              · rw [if_neg hshort] at ht
                have hbuf' : ∀ e' ∈ (scanRows o iv buf (tagRows i0 page)).2.1,
                    e'.data < i0 + 1 := by
                  intro e' he'
                  exact Nat.lt_succ_of_le (htags.2 e' he')
                rcases ih (i0 + 1) _ hbuf' l1' l2 j e ht with hlt | hpre
                · rcases Nat.lt_or_ge j i0 with h2 | h2
                  · exact Or.inl h2
                  · have hj : j = i0 := by omega
                    subst hj
                    right
                    rw [he1, he2, he3]
                    exact ⟨by simp, by simp, by simp⟩
                · right
                  rw [hl]
                  refine ⟨?_, ?_, ?_⟩
                  · simp only [List.mem_cons, List.mem_append]
                    right; right; right; right
                    exact hpre.1
                  · simp only [List.mem_cons, List.mem_append]
                    right; right; right; right
                    exact hpre.2.1
                  · simp only [List.mem_cons, List.mem_append]
                    right; right; right; right
                    exact hpre.2.2
        · rw [if_neg hok] at h
          have hmem : ScanEvent.yieldRow j e ∈
              ([ScanEvent.validateSnapshot i0 false, ScanEvent.streamError] :
                List (ScanEvent (ScanEntry Nat))) := by
            rw [h]
            simp
          simp at hmem

/-- In an index-scan trace, every retention-validation call for page `j` is
preceded by that page's fetch and connection release. -/
theorem indexScanTrace_validate_after_release (o : Order) (iv : KeyInterval) (bs : Nat)
    (ok : Nat → Bool) :
    ∀ (pages : List (List (IndexRowFetched Unit))) (i0 : Nat)
      (buf : List (ScanEntry Nat)) (l1 l2 : List (ScanEvent (ScanEntry Nat)))
      (j : Nat) (b : Bool),
      indexScanTrace o iv bs ok i0 buf pages = l1 ++ ScanEvent.validateSnapshot j b :: l2 →
      ScanEvent.releaseConn j ∈ l1 ∧ ScanEvent.fetchPage j ∈ l1 := by
  intro pages
  induction pages with
  | nil =>
    intro i0 buf l1 l2 j b h
    simp only [indexScanTrace] at h
    have hmem : ScanEvent.validateSnapshot j b ∈
        (flushSortFilter o iv buf).map fun e' => ScanEvent.yieldRow e'.data e' := by
      rw [h]
      simp
    rcases List.mem_map.mp hmem with ⟨e', _, heq⟩
    cases heq
  | cons page rest ih =>
    intro i0 buf l1 l2 j b h
    simp only [indexScanTrace] at h
    cases l1 with
    | nil => simp at h
    | cons e1 l1a =>
      simp only [List.cons_append, List.cons.injEq] at h
      obtain ⟨he1, h⟩ := h
      cases l1a with
      | nil => simp at h
      | cons e2 l1b =>
        simp only [List.cons_append, List.cons.injEq] at h
        obtain ⟨he2, h⟩ := h
        by_cases hok : ok i0 = true
        · rw [if_pos hok] at h
          cases l1b with
          | nil =>
            simp only [List.nil_append, List.cons.injEq] at h
            obtain ⟨hv, _⟩ := h
            have hj : i0 = j := by
              cases hv
              rfl
            subst hj
            rw [he1, he2]
            exact ⟨by simp, by simp⟩
          | cons e3 l1c =>
            simp only [List.cons_append, List.cons.injEq] at h
            obtain ⟨he3, h⟩ := h
            rcases append_cons_split h with ⟨b2, hb⟩ | ⟨l1', ht, hl⟩
            · have hmem : ScanEvent.validateSnapshot j b ∈
                  (scanRows o iv buf (tagRows i0 page)).1.map
                    (fun e' => ScanEvent.yieldRow e'.data e') := by
                rw [hb]
                simp
              rcases List.mem_map.mp hmem with ⟨e', _, heq⟩
              cases heq
            · by_cases hshort : page.length < bs
              · rw [if_pos hshort] at ht
                have hmem : ScanEvent.validateSnapshot j b ∈
                    (flushSortFilter o iv (scanRows o iv buf (tagRows i0 page)).2.1).map
                      (fun e' => ScanEvent.yieldRow e'.data e') := by
                  rw [ht]
                  simp
                rcases List.mem_map.mp hmem with ⟨e', _, heq⟩
                cases heq
              · rw [if_neg hshort] at ht
                have hih := ih (i0 + 1) _ l1' l2 j b ht
                rw [hl]
                constructor
                · simp only [List.mem_cons, List.mem_append]
                  right; right; right; right
                  exact hih.1
                · simp only [List.mem_cons, List.mem_append]
                  right; right; right; right
                  exact hih.2
        · rw [if_neg hok] at h
          cases l1b with
          | nil =>
            simp only [List.nil_append, List.cons.injEq] at h
            obtain ⟨hv, _⟩ := h
            have hj : i0 = j := by
              cases hv
              rfl
            subst hj
            rw [he1, he2]
            exact ⟨by simp, by simp⟩
          | cons e3 l1c =>
            simp only [List.cons_append, List.cons.injEq] at h
            obtain ⟨he3, h⟩ := h
            have hmem : ScanEvent.validateSnapshot j b ∈
                ([ScanEvent.streamError] : List (ScanEvent (ScanEntry Nat))) := by
              rw [h]
              simp
            simp at hmem

/-- C6: in both `load_documents` and `index_scan`, every page's retention
validation runs after the page's rows are fetched and the connection is
released, and before any row of that page reaches the caller: a yielded row
of origin page `j` is always preceded in the trace by page `j`'s fetch,
release and successful validation, every validation call is preceded by its
page's fetch and release, and when validation of page `i` fails no row
fetched at page `i` — nor at any later page — is ever emitted. -/
theorem C6_retention_validation_order {ρ : Type} (ps bs : Nat) (ok : Nat → Bool)
    (pages : List (List ρ)) (ipages : List (List (IndexRowFetched Unit)))
    (o : Order) (iv : KeyInterval) :
    (∀ (l1 l2 : List (ScanEvent ρ)) (j : Nat) (r : ρ),
      loadDocumentsTrace ps ok 0 pages = l1 ++ ScanEvent.yieldRow j r :: l2 →
      ScanEvent.validateSnapshot j true ∈ l1 ∧ ScanEvent.releaseConn j ∈ l1 ∧
        ScanEvent.fetchPage j ∈ l1) ∧
    (∀ (l1 l2 : List (ScanEvent ρ)) (j : Nat) (b : Bool),
      loadDocumentsTrace ps ok 0 pages = l1 ++ ScanEvent.validateSnapshot j b :: l2 →
      ScanEvent.releaseConn j ∈ l1 ∧ ScanEvent.fetchPage j ∈ l1) ∧
    (∀ i, ok i = false → ∀ (j : Nat) (r : ρ), i ≤ j →
      ScanEvent.yieldRow j r ∉ loadDocumentsTrace ps ok 0 pages) ∧
    (∀ (l1 l2 : List (ScanEvent (ScanEntry Nat))) (j : Nat) (e : ScanEntry Nat),
      indexScanTrace o iv bs ok 0 [] ipages = l1 ++ ScanEvent.yieldRow j e :: l2 →
      ScanEvent.validateSnapshot j true ∈ l1 ∧ ScanEvent.releaseConn j ∈ l1 ∧
        ScanEvent.fetchPage j ∈ l1) ∧
    (∀ (l1 l2 : List (ScanEvent (ScanEntry Nat))) (j : Nat) (b : Bool),
      indexScanTrace o iv bs ok 0 [] ipages = l1 ++ ScanEvent.validateSnapshot j b :: l2 →
      ScanEvent.releaseConn j ∈ l1 ∧ ScanEvent.fetchPage j ∈ l1) ∧
    (∀ i, ok i = false → ∀ (j : Nat) (e : ScanEntry Nat), i ≤ j →
      ScanEvent.yieldRow j e ∉ indexScanTrace o iv bs ok 0 [] ipages) := by
  refine ⟨?_, ?_, ?_, ?_, ?_, ?_⟩
  · intro l1 l2 j r h
    exact loadDocumentsTrace_yield_after_validate ps ok pages 0 l1 l2 j r h
  · intro l1 l2 j b h
    exact loadDocumentsTrace_validate_after_release ps ok pages 0 l1 l2 j b h
  · intro i hfail j r hij hmem
    have := loadDocumentsTrace_yield_ok ps ok pages 0 j r hmem i (Nat.zero_le i) hij
    rw [hfail] at this
    exact Bool.false_ne_true this
  · intro l1 l2 j e h
    rcases indexScanTrace_yield_after_validate o iv bs ok ipages 0 []
      (by intro e' he'; simp at he') l1 l2 j e h with hlt | hpre
    · exact absurd hlt (Nat.not_lt_zero j)
    · exact hpre
  · intro l1 l2 j b h
    exact indexScanTrace_validate_after_release o iv bs ok ipages 0 [] l1 l2 j b h
  · intro i hfail j e hij hmem
    rcases indexScanTrace_yield_ok o iv bs ok ipages 0 []
      (by intro e' he'; simp at he') j e hmem with hlt | hall
    · exact absurd hlt (Nat.not_lt_zero j)
    · have := hall i (Nat.zero_le i) hij
      rw [hfail] at this
      exact Bool.false_ne_true this

/-- C6 witness: concrete one-page traces — the all-valid document trace
splits with the validation before its yield, a failing validator suppresses
the row, and the index trace's validation follows fetch and release. -/
theorem C6_retention_validation_order_witness :
    ((ScanEvent.validateSnapshot 0 true ∈
        ([ScanEvent.fetchPage 0, ScanEvent.releaseConn 0,
          ScanEvent.validateSnapshot 0 true] : List (ScanEvent Nat)) ∧
      ScanEvent.releaseConn 0 ∈
        ([ScanEvent.fetchPage 0, ScanEvent.releaseConn 0,
          ScanEvent.validateSnapshot 0 true] : List (ScanEvent Nat)) ∧
      ScanEvent.fetchPage 0 ∈
        ([ScanEvent.fetchPage 0, ScanEvent.releaseConn 0,
          ScanEvent.validateSnapshot 0 true] : List (ScanEvent Nat))) ∧
    (ScanEvent.yieldRow 0 (5 : Nat) ∉
      loadDocumentsTrace 2 (fun _ => false) 0 [[5]]) ∧
    (ScanEvent.releaseConn 0 ∈
        ([ScanEvent.fetchPage 0, ScanEvent.releaseConn 0] :
          List (ScanEvent (ScanEntry Nat))) ∧
      ScanEvent.fetchPage 0 ∈
        ([ScanEvent.fetchPage 0, ScanEvent.releaseConn 0] :
          List (ScanEvent (ScanEntry Nat))))) := by
  refine ⟨?_, ?_, ?_⟩
  · exact (C6_retention_validation_order 2 1 (fun _ => true) [[5]] []
      Order.asc { startKey := [], endBound := IntervalEnd.unbounded }).1
      [ScanEvent.fetchPage 0, ScanEvent.releaseConn 0, ScanEvent.validateSnapshot 0 true]
      [] 0 5 (by decide)
  · exact (C6_retention_validation_order 2 1 (fun _ => false) [[5]] []
      Order.asc { startKey := [], endBound := IntervalEnd.unbounded }).2.2.1
      0 rfl 0 5 (Nat.le_refl 0)
  · exact (C6_retention_validation_order 2 1 (fun _ => true) ([] : List (List Nat)) [[]]
      Order.asc { startKey := [], endBound := IntervalEnd.unbounded }).2.2.2.2.1
      [ScanEvent.fetchPage 0, ScanEvent.releaseConn 0] [] 0 true
      (by simp [indexScanTrace, scanRows, tagRows, flushSortFilter, Order.apply])

/-! ## Lemmas towards the index scan ordering theorem -/

/-- Mixed transitivity: `a < b` and `b ≤ c` give `a < c`. -/
theorem bytesLt_lt_le_trans {a b c : Bytes} (h1 : bytesLt a b = true)
    (h2 : bytesLt c b = false) : bytesLt a c = true := by
  cases hv : bytesLt b c with
  | true => exact bytesLt_trans _ _ _ h1 hv
  | false => rw [bytesLt_connex _ _ hv h2] at h1; exact h1

/-- Mixed transitivity: `a ≤ b` and `b < c` give `a < c`. -/
theorem bytesLt_le_lt_trans {a b c : Bytes} (h1 : bytesLt b a = false)
    (h2 : bytesLt b c = true) : bytesLt a c = true := by
  cases hv : bytesLt a b with
  | true => exact bytesLt_trans _ _ _ hv h2
  | false => rw [bytesLt_connex _ _ hv h1]; exact h2

/-- Transitivity of the non-strict byte order. -/
theorem bytesLe_trans {a b c : Bytes} (h1 : bytesLt b a = false)
    (h2 : bytesLt c b = false) : bytesLt c a = false := by
  cases hv : bytesLt c a with
  | false => rfl
  | true =>
    have := bytesLt_lt_le_trans hv h1
    rw [this] at h2
    exact h2

/-- Directional irreflexivity. -/
theorem ordBytesLt_irrefl (o : Order) (a : Bytes) : ordBytesLt o a a = false := by
  cases o <;> simp [ordBytesLt, bytesLt_irrefl]

/-- Directional asymmetry. -/
theorem ordBytesLt_asymm {o : Order} {a b : Bytes} (h : ordBytesLt o a b = true) :
    ordBytesLt o b a = false := by
  cases o <;> simp only [ordBytesLt] at h ⊢ <;> exact bytesLt_asymm h

/-- Directional connexity. -/
theorem ordBytesLt_connex {o : Order} {a b : Bytes} (h1 : ordBytesLt o a b = false)
    (h2 : ordBytesLt o b a = false) : a = b := by
  cases o
  · exact bytesLt_connex _ _ h1 h2
  · exact bytesLt_connex _ _ h2 h1

/-- Directional mixed transitivity: `a < b ≤ c` gives `a < c`. -/
theorem ordBytesLt_lt_le_trans {o : Order} {a b c : Bytes}
    (h1 : ordBytesLt o a b = true) (h2 : ordBytesLt o c b = false) :
    ordBytesLt o a c = true := by
  cases o
  · exact bytesLt_lt_le_trans h1 h2
  · simp only [ordBytesLt] at h1 h2 ⊢
    exact bytesLt_le_lt_trans h2 h1

/-- Directional non-strict transitivity. -/
theorem ordBytesLe_trans {o : Order} {a b c : Bytes} (h1 : ordBytesLt o b a = false)
    (h2 : ordBytesLt o c b = false) : ordBytesLt o c a = false := by
  cases o
  · exact bytesLe_trans h1 h2
  · simp only [ordBytesLt] at h1 h2 ⊢
    exact bytesLe_trans h2 h1

/-- Directional order on equal-length truncations transfers to full strings. -/
theorem ordBytesLt_of_take_lt {o : Order} {n : Nat} {a b : Bytes}
    (h : ordBytesLt o (a.take n) (b.take n) = true) : ordBytesLt o a b = true := by
  cases o
  · exact bytesLt_of_take_lt n a b h
  · simp only [ordBytesLt] at h ⊢
    exact bytesLt_of_take_lt n b a h

/-- Truncating the reconstructed full key to the maximal prefix length gives
back the row's `key_prefix`. -/
theorem fullKey_take {r : IndexRowFetched α} (h : rowLenSpec r) :
    (fetchedFullKey r).take maxIndexKeyPfxLen = r.keyPfx := by
  unfold fetchedFullKey
  cases hs : r.keySuffix with
  | none =>
    simp only [hs, Option.getD_none, List.append_nil]
    exact List.take_of_length_le h.1
  | some s =>
    have hlen : r.keyPfx.length = maxIndexKeyPfxLen := h.2 (by simp [hs])
    simp only [hs, Option.getD_some]
    rw [← hlen]
    exact List.take_left _ _

/-- A full key shorter than the maximal prefix length has no suffix and
equals the row's `key_prefix`. -/
theorem fullKey_short {r : IndexRowFetched α} (h : rowLenSpec r)
    (hshort : (fetchedFullKey r).length < maxIndexKeyPfxLen) :
    fetchedFullKey r = r.keyPfx := by
  unfold fetchedFullKey at hshort ⊢
  cases hs : r.keySuffix with
  | none => simp
  | some s =>
    have hlen : r.keyPfx.length = maxIndexKeyPfxLen := h.2 (by simp [hs])
    rw [hs] at hshort
    simp only [Option.getD_some, List.length_append] at hshort
    omega

/-- A buffer flush emits a permutation of the buffer's in-interval entries. -/
theorem flushSortFilter_perm {α : Type} (o : Order) (iv : KeyInterval)
    (buf : List (ScanEntry α)) :
    (flushSortFilter o iv buf).Perm
      (buf.filter fun e => intervalContains iv e.key) := by
  unfold flushSortFilter
  refine List.Perm.filter _ ?_
  cases o with
  | asc => exact List.mergeSort_perm buf _
  | desc =>
    simp only [Order.apply]
    exact (List.reverse_perm _).trans (List.mergeSort_perm buf _)

/-- The keys of a buffer flush are sorted in the scan direction. -/
theorem flushSortFilter_sorted {α : Type} (o : Order) (iv : KeyInterval)
    (buf : List (ScanEntry α)) :
    (flushSortFilter o iv buf).Pairwise
      (fun a b => ordBytesLt o b.key a.key = false) := by
  unfold flushSortFilter
  refine List.Pairwise.filter _ ?_
  have hsorted := @List.sorted_mergeSort _
    (fun a b : ScanEntry α => !(bytesLt b.key a.key))
    (fun a b c h1 h2 => by
      simp only [Bool.not_eq_true'] at h1 h2 ⊢
      exact bytesLe_trans h1 h2)
    (fun a b => by
      cases hv : bytesLt b.key a.key with
      | false => simp [hv]
      | true => simp [bytesLt_asymm hv])
    buf
  cases o with
  | asc =>
    simp only [Order.apply]
    refine hsorted.imp ?_
    intro a b h
    simp only [Bool.not_eq_true'] at h
    simpa [ordBytesLt] using h
  | desc =>
    simp only [Order.apply]
    rw [List.pairwise_reverse]
    refine hsorted.imp ?_
    intro a b h
    simp only [Bool.not_eq_true'] at h
    simpa [ordBytesLt] using h

/-- Strict order on truncations yields non-strict order on the full keys in
the opposite orientation. -/
theorem key_le_of_take_lt {o : Order} {k1 k2 : Bytes}
    (h : ordBytesLt o (k1.take maxIndexKeyPfxLen) (k2.take maxIndexKeyPfxLen) = true) :
    ordBytesLt o k2 k1 = false :=
  ordBytesLt_asymm (ordBytesLt_of_take_lt h)

/-- What the flush step guarantees under the buffer invariants: the emitted
and kept entries partition the buffer's in-interval contents, emitted entries
are sorted and their key prefixes lie strictly before the incoming row's
`key_prefix`, and kept entries share the incoming row's `key_prefix`. -/
theorem scanFlushStep_spec {α : Type} (o : Order) (iv : KeyInterval)
    (buf : List (ScanEntry α)) (r : IndexRowFetched α)
    (hbufLen : ∀ e ∈ buf, maxIndexKeyPfxLen ≤ e.key.length)
    (hbufSame : ∀ e1 ∈ buf, ∀ e2 ∈ buf,
      e1.key.take maxIndexKeyPfxLen = e2.key.take maxIndexKeyPfxLen)
    (hbufRow : ∀ e ∈ buf,
      ordBytesLt o r.keyPfx (e.key.take maxIndexKeyPfxLen) = false) :
    ((scanFlushStep o iv buf r).1 ++
        ((scanFlushStep o iv buf r).2.filter fun e => intervalContains iv e.key)).Perm
      (buf.filter fun e => intervalContains iv e.key) ∧
    ((scanFlushStep o iv buf r).1.Pairwise fun a b => ordBytesLt o b.key a.key = false) ∧
    (∀ a ∈ (scanFlushStep o iv buf r).1,
      ordBytesLt o (a.key.take maxIndexKeyPfxLen) r.keyPfx = true ∧
        maxIndexKeyPfxLen ≤ a.key.length) ∧
    (∀ e ∈ (scanFlushStep o iv buf r).2, e ∈ buf) ∧
    (∀ e ∈ (scanFlushStep o iv buf r).2, e.key.take maxIndexKeyPfxLen = r.keyPfx) ∧
    (∀ e ∈ (scanFlushStep o iv buf r).2, maxIndexKeyPfxLen ≤ e.key.length) := by
  cases hb : buf with
  | nil =>
    simp [scanFlushStep]
  | cons e0 bs =>
    by_cases hpfx : e0.key.take maxIndexKeyPfxLen ≠ r.keyPfx
    · have hst : scanFlushStep o iv (e0 :: bs) r = (flushSortFilter o iv (e0 :: bs), []) := by
        simp [scanFlushStep, hpfx]
      rw [hst]
      refine ⟨?_, ?_, ?_, ?_, ?_, ?_⟩
      · simp only [List.filter_nil, List.append_nil]
        exact flushSortFilter_perm o iv (e0 :: bs)
      · exact flushSortFilter_sorted o iv (e0 :: bs)
      · intro a ha
        have hmem : a ∈ e0 :: bs := flushSortFilter_subset o iv (e0 :: bs) a ha
        have htake : a.key.take maxIndexKeyPfxLen = e0.key.take maxIndexKeyPfxLen :=
          hbufSame a (hb ▸ hmem) e0 (hb ▸ (List.mem_cons_self e0 bs))
        have hrow := hbufRow a (hb ▸ hmem)
        constructor
        · rw [htake]
          cases hv : ordBytesLt o (e0.key.take maxIndexKeyPfxLen) r.keyPfx with
          | true => rfl
          | false =>
            rw [htake] at hrow
            exact absurd (ordBytesLt_connex hv hrow) hpfx
        · exact hbufLen a (hb ▸ hmem)
      · intro e he
        simp at he
      · intro e he
        simp at he
      · intro e he
        simp at he
    · have hst : scanFlushStep o iv (e0 :: bs) r = ([], e0 :: bs) := by
        simp [scanFlushStep, hpfx]
      rw [not_not] at hpfx
      rw [hst]
      refine ⟨by simp, by simp, by simp, fun e he => he, ?_, ?_⟩
      · intro e he
        rw [hbufSame e (hb ▸ he) e0 (hb ▸ (List.mem_cons_self e0 bs))]
        exact hpfx
      · intro e he
        exact hbufLen e (hb ▸ he)


/-- A deleted row contributes nothing to the surviving entries. -/
theorem keptEntries_cons_deleted {α : Type} {r : IndexRowFetched α}
    (rs : List (IndexRowFetched α)) (h : r.deleted = true) :
    keptEntries (r :: rs) = keptEntries rs := by
  unfold keptEntries
  rw [List.filter_cons]
  simp [h]

/-- A live row heads the surviving entries with its full key. -/
theorem keptEntries_cons_live {α : Type} {r : IndexRowFetched α}
    (rs : List (IndexRowFetched α)) (h : r.deleted = false) :
    keptEntries (r :: rs) =
      ScanEntry.mk (fetchedFullKey r) r.data :: keptEntries rs := by
  unfold keptEntries
  rw [List.filter_cons]
  simp [h]

/-- Every surviving entry's key truncates to the `key_prefix` of one of the
rows it came from. -/
theorem keptEntries_take {α : Type} {rs : List (IndexRowFetched α)}
    (hlen : ∀ r ∈ rs, rowLenSpec r) :
    ∀ x ∈ keptEntries rs, ∃ r ∈ rs, x.key.take maxIndexKeyPfxLen = r.keyPfx := by
  intro x hx
  unfold keptEntries at hx
  rcases List.mem_map.mp hx with ⟨r, hr, he⟩
  have hrrs : r ∈ rs := (List.mem_filter.mp hr).1
  refine ⟨r, hrrs, ?_⟩
  rw [← he]
  exact fullKey_take (hlen r hrrs)

/-- The main invariant of the index scan row loop: over rows whose
`key_prefix` columns arrive in the scan direction and satisfy the length
invariant, and a buffer of long-key entries sharing one maximal prefix that
lies at or before every remaining row, the loop (i) passes all its
buffer-empty assertions, (ii) emits — together with the in-interval part of
its final buffer — exactly the in-interval surviving entries of the initial
buffer and of the rows, (iii) emits keys sorted in the scan direction,
(iv) emits nothing that sorts after a still-buffered entry, and leaves a
buffer of (v) long keys (vi) sharing one maximal prefix (vii) drawn from the
initial buffer or the rows. -/
theorem scanRows_spec {α : Type} (o : Order) (iv : KeyInterval) :
    ∀ (rows : List (IndexRowFetched α)) (buf : List (ScanEntry α)),
      (∀ r ∈ rows, rowLenSpec r) →
      rows.Pairwise (fun a b => ordBytesLt o b.keyPfx a.keyPfx = false) →
      (∀ e ∈ buf, maxIndexKeyPfxLen ≤ e.key.length) →
      (∀ e1 ∈ buf, ∀ e2 ∈ buf,
        e1.key.take maxIndexKeyPfxLen = e2.key.take maxIndexKeyPfxLen) →
      (∀ e ∈ buf, ∀ r ∈ rows,
        ordBytesLt o r.keyPfx (e.key.take maxIndexKeyPfxLen) = false) →
      ((scanRows o iv buf rows).2.2 = true) ∧
      ((scanRows o iv buf rows).1 ++
          ((scanRows o iv buf rows).2.1.filter fun e => intervalContains iv e.key)).Perm
        ((buf ++ keptEntries rows).filter fun e => intervalContains iv e.key) ∧
      ((scanRows o iv buf rows).1.Pairwise fun a b => ordBytesLt o b.key a.key = false) ∧
      (∀ a ∈ (scanRows o iv buf rows).1, ∀ e ∈ (scanRows o iv buf rows).2.1,
        ordBytesLt o e.key a.key = false) ∧
      (∀ e ∈ (scanRows o iv buf rows).2.1, maxIndexKeyPfxLen ≤ e.key.length) ∧
      (∀ e1 ∈ (scanRows o iv buf rows).2.1, ∀ e2 ∈ (scanRows o iv buf rows).2.1,
        e1.key.take maxIndexKeyPfxLen = e2.key.take maxIndexKeyPfxLen) ∧
      (∀ e ∈ (scanRows o iv buf rows).2.1,
        e ∈ buf ∨ ∃ r ∈ rows, e.key.take maxIndexKeyPfxLen = r.keyPfx) := by
  intro rows
  induction rows with
  | nil =>
    intro buf hlen hsorted hbufLen hbufSame hbufRows
    refine ⟨rfl, ?_, ?_, ?_, hbufLen, hbufSame, fun e he => Or.inl he⟩
    · simp [scanRows, keptEntries]
    · simp [scanRows]
    · intro a ha
      simp [scanRows] at ha
  | cons r rs ih =>
    intro buf hlen hsorted hbufLen hbufSame hbufRows
    have hlenr : rowLenSpec r := hlen r (by simp)
    have hlenrs : ∀ x ∈ rs, rowLenSpec x := fun x hx => hlen x (by simp [hx])
    have hsortcons := List.pairwise_cons.mp hsorted
    have hr_rs : ∀ x ∈ rs, ordBytesLt o x.keyPfx r.keyPfx = false := hsortcons.1
    have hsort_rs := hsortcons.2
    have hbufRow_r : ∀ e ∈ buf,
        ordBytesLt o r.keyPfx (e.key.take maxIndexKeyPfxLen) = false :=
      fun e he => hbufRows e he r (by simp)
    obtain ⟨hA1, hA3, hA4, hA5, hA6, hA7⟩ :=
      scanFlushStep_spec o iv buf r hbufLen hbufSame hbufRow_r
    have hKtake : (fetchedFullKey r).take maxIndexKeyPfxLen = r.keyPfx :=
      fullKey_take hlenr
    have crossStrict : ∀ a ∈ (scanFlushStep o iv buf r).1, ∀ k : Bytes,
        (k.take maxIndexKeyPfxLen = r.keyPfx ∨
          ∃ x ∈ rs, k.take maxIndexKeyPfxLen = x.keyPfx) →
        ordBytesLt o k a.key = false := by
      intro a ha k hk
      have h1 := (hA4 a ha).1
      have h2 : ordBytesLt o (a.key.take maxIndexKeyPfxLen)
          (k.take maxIndexKeyPfxLen) = true := by
        rcases hk with hq | ⟨x, hx, hq⟩
        · rw [hq]
          exact h1
        · rw [hq]
          exact ordBytesLt_lt_le_trans h1 (hr_rs x hx)
      exact key_le_of_take_lt h2
    cases hdel : r.deleted with
    | true =>
      have heq1 : (scanRows o iv buf (r :: rs)).1 =
          (scanFlushStep o iv buf r).1 ++
            (scanRows o iv (scanFlushStep o iv buf r).2 rs).1 := by
        simp only [scanRows]
        rw [if_pos hdel]
      have heq2 : (scanRows o iv buf (r :: rs)).2.1 =
          (scanRows o iv (scanFlushStep o iv buf r).2 rs).2.1 := by
        simp only [scanRows]
        rw [if_pos hdel]
      have heq3 : (scanRows o iv buf (r :: rs)).2.2 =
          (scanRows o iv (scanFlushStep o iv buf r).2 rs).2.2 := by
        simp only [scanRows]
        rw [if_pos hdel]
      have hb2Same : ∀ e1 ∈ (scanFlushStep o iv buf r).2,
          ∀ e2 ∈ (scanFlushStep o iv buf r).2,
          e1.key.take maxIndexKeyPfxLen = e2.key.take maxIndexKeyPfxLen :=
        fun e1 h1 e2 h2 => (hA6 e1 h1).trans (hA6 e2 h2).symm
      have hb2Rows : ∀ e ∈ (scanFlushStep o iv buf r).2, ∀ x ∈ rs,
          ordBytesLt o x.keyPfx (e.key.take maxIndexKeyPfxLen) = false := by
        intro e he x hx
        rw [hA6 e he]
        exact hr_rs x hx
      obtain ⟨iO1, iO2, iO3, iO4, iO5, iO6, iO7⟩ :=
        ih (scanFlushStep o iv buf r).2 hlenrs hsort_rs hA7 hb2Same hb2Rows
      have htailTake : ∀ x ∈ (scanRows o iv (scanFlushStep o iv buf r).2 rs).1,
          x.key.take maxIndexKeyPfxLen = r.keyPfx ∨
            ∃ r' ∈ rs, x.key.take maxIndexKeyPfxLen = r'.keyPfx := by
        intro x hx
        have hx1 : x ∈ (scanRows o iv (scanFlushStep o iv buf r).2 rs).1 ++
            ((scanRows o iv (scanFlushStep o iv buf r).2 rs).2.1.filter
              fun e => intervalContains iv e.key) := List.mem_append_left _ hx
        have hx2 := (iO2.mem_iff).mp hx1
        have hx3 := (List.mem_filter.mp hx2).1
        rcases List.mem_append.mp hx3 with hxa | hxa
        · exact Or.inl (hA6 x hxa)
        · exact Or.inr (keptEntries_take hlenrs x hxa)
      have hbufTake : ∀ e ∈ (scanRows o iv (scanFlushStep o iv buf r).2 rs).2.1,
          e.key.take maxIndexKeyPfxLen = r.keyPfx ∨
            ∃ r' ∈ rs, e.key.take maxIndexKeyPfxLen = r'.keyPfx := by
        intro e he
        rcases iO7 e he with h | h
        · exact Or.inl (hA6 e h)
        · exact Or.inr h
      rw [heq1, heq2, heq3]
      refine ⟨iO1, ?_, ?_, ?_, iO5, iO6, ?_⟩
      · rw [keptEntries_cons_deleted rs hdel, List.filter_append, List.append_assoc]
        have h1 : (scanRows o iv (scanFlushStep o iv buf r).2 rs).1 ++
            ((scanRows o iv (scanFlushStep o iv buf r).2 rs).2.1.filter
              fun e => intervalContains iv e.key) |>.Perm
            (((scanFlushStep o iv buf r).2.filter fun e => intervalContains iv e.key) ++
              ((keptEntries rs).filter fun e => intervalContains iv e.key)) := by
          have h0 := iO2
          rwa [List.filter_append] at h0
        have h2 := List.Perm.append_left (scanFlushStep o iv buf r).1 h1
        refine h2.trans ?_
        rw [← List.append_assoc]
        exact hA1.append_right _
      · rw [List.pairwise_append]
        refine ⟨hA3, iO3, ?_⟩
        intro a ha x hx
        exact crossStrict a ha x.key (htailTake x hx)
      · intro a ha e he
        rcases List.mem_append.mp ha with h | h
        · exact crossStrict a h e.key (hbufTake e he)
        · exact iO4 a h e he
      · intro e he
        rcases iO7 e he with h | h
        · exact Or.inl (hA5 e h)
        · rcases h with ⟨r', hr', htk⟩
          exact Or.inr ⟨r', List.mem_cons_of_mem r hr', htk⟩
    | false =>
      by_cases hshort : (fetchedFullKey r).length < maxIndexKeyPfxLen
      · -- short key: the buffer kept by the flush step must be empty
        have hKpfx : fetchedFullKey r = r.keyPfx := fullKey_short hlenr hshort
        have hst2nil : (scanFlushStep o iv buf r).2 = [] := by
          cases hs : (scanFlushStep o iv buf r).2 with
          | nil => rfl
          | cons e es =>
            exfalso
            have h1 : maxIndexKeyPfxLen ≤ e.key.length := hA7 e (hs ▸ (by simp))
            have h2 : e.key.take maxIndexKeyPfxLen = r.keyPfx := hA6 e (hs ▸ (by simp))
            have h3 : (e.key.take maxIndexKeyPfxLen).length = maxIndexKeyPfxLen := by
              rw [List.length_take]
              omega
            rw [h2] at h3
            have h4 : r.keyPfx.length ≤ (fetchedFullKey r).length := by
              unfold fetchedFullKey
              simp
            omega
        have heq1 : (scanRows o iv buf (r :: rs)).1 =
            ((scanFlushStep o iv buf r).1 ++
              (if intervalContains iv (fetchedFullKey r) then
                [ScanEntry.mk (fetchedFullKey r) r.data] else [])) ++
              (scanRows o iv ([] : List (ScanEntry α)) rs).1 := by
          simp only [scanRows]
          rw [if_neg (by rw [hdel]; simp), if_pos hshort, hst2nil]
        have heq2 : (scanRows o iv buf (r :: rs)).2.1 =
            (scanRows o iv ([] : List (ScanEntry α)) rs).2.1 := by
          simp only [scanRows]
          rw [if_neg (by rw [hdel]; simp), if_pos hshort, hst2nil]
        have heq3 : (scanRows o iv buf (r :: rs)).2.2 =
            (scanRows o iv ([] : List (ScanEntry α)) rs).2.2 := by
          simp only [scanRows]
          rw [if_neg (by rw [hdel]; simp), if_pos hshort, hst2nil]
          simp
        obtain ⟨iO1, iO2, iO3, iO4, iO5, iO6, iO7⟩ :=
          ih [] hlenrs hsort_rs (by simp) (by simp) (by simp)
        have hA1s : ((scanFlushStep o iv buf r).1).Perm
            (buf.filter fun e => intervalContains iv e.key) := by
          have h0 := hA1
          rwa [hst2nil, List.filter_nil, List.append_nil] at h0
        have hbufTake : ∀ e ∈ (scanRows o iv ([] : List (ScanEntry α)) rs).2.1,
            ∃ r' ∈ rs, e.key.take maxIndexKeyPfxLen = r'.keyPfx := by
          intro e he
          rcases iO7 e he with h | h
          · simp at h
          · exact h
        have htailTake : ∀ x ∈ (scanRows o iv ([] : List (ScanEntry α)) rs).1,
            ∃ r' ∈ rs, x.key.take maxIndexKeyPfxLen = r'.keyPfx := by
          intro x hx
          have hx1 : x ∈ (scanRows o iv ([] : List (ScanEntry α)) rs).1 ++
              ((scanRows o iv ([] : List (ScanEntry α)) rs).2.1.filter
                fun e => intervalContains iv e.key) := List.mem_append_left _ hx
          have hx2 := (iO2.mem_iff).mp hx1
          have hx3 := (List.mem_filter.mp hx2).1
          rcases List.mem_append.mp hx3 with hxa | hxa
          · simp at hxa
          · exact keptEntries_take hlenrs x hxa
        have hehKey : ∀ x ∈ (if intervalContains iv (fetchedFullKey r) then
            [ScanEntry.mk (fetchedFullKey r) r.data] else ([] : List (ScanEntry α))),
            x.key = fetchedFullKey r := by
          intro x hx
          split at hx
          · rw [List.mem_singleton] at hx
            rw [hx]
          · simp at hx
        -- any later key whose truncation matches a remaining row's prefix is
        -- at or after the short key in the scan direction
        have hehLater : ∀ (k : Bytes),
            (∃ r' ∈ rs, k.take maxIndexKeyPfxLen = r'.keyPfx) →
            ordBytesLt o k (fetchedFullKey r) = false := by
          intro k hk
          rcases hk with ⟨r', hr', hq⟩
          by_cases hqe : r'.keyPfx = r.keyPfx
          · -- the witnessing prefix is the short key itself, so k equals it
            have hlen1 : (k.take maxIndexKeyPfxLen).length = r'.keyPfx.length := by
              rw [hq]
            rw [List.length_take] at hlen1
            have hshort' : r'.keyPfx.length < maxIndexKeyPfxLen := by
              rw [hqe, ← hKpfx]
              exact hshort
            have hkl : k.length ≤ maxIndexKeyPfxLen := by omega
            have hkk : k = r'.keyPfx := by
              rw [← hq]
              exact (List.take_of_length_le hkl).symm
            rw [hkk, hqe, ← hKpfx]
            exact ordBytesLt_irrefl o _
          · have hlt : ordBytesLt o r.keyPfx r'.keyPfx = true := by
              cases hv : ordBytesLt o r.keyPfx r'.keyPfx with
              | true => rfl
              | false => exact absurd (ordBytesLt_connex (hr_rs r' hr') hv) hqe
            have h2 : ordBytesLt o ((fetchedFullKey r).take maxIndexKeyPfxLen)
                (k.take maxIndexKeyPfxLen) = true := by
              rw [hKtake, hq]
              exact hlt
            exact key_le_of_take_lt h2
        have hfc : ((ScanEntry.mk (fetchedFullKey r) r.data :: keptEntries rs).filter
              fun e => intervalContains iv e.key) =
            (if intervalContains iv (fetchedFullKey r) then
              [ScanEntry.mk (fetchedFullKey r) r.data] else ([] : List (ScanEntry α))) ++
              ((keptEntries rs).filter fun e => intervalContains iv e.key) := by
          by_cases hc : intervalContains iv (fetchedFullKey r) = true
          · simp [List.filter_cons, hc]
          · simp [List.filter_cons, hc]
        rw [heq1, heq2, heq3]
        refine ⟨iO1, ?_, ?_, ?_, iO5, iO6, ?_⟩
        · rw [keptEntries_cons_live rs hdel, List.filter_append, hfc,
            List.append_assoc, List.append_assoc]
          have h1 : (scanRows o iv ([] : List (ScanEntry α)) rs).1 ++
              ((scanRows o iv ([] : List (ScanEntry α)) rs).2.1.filter
                fun e => intervalContains iv e.key) |>.Perm
              ((keptEntries rs).filter fun e => intervalContains iv e.key) := by
            have h0 := iO2
            rwa [List.nil_append] at h0
          have h2 := List.Perm.append_left
            (if intervalContains iv (fetchedFullKey r) then
              [ScanEntry.mk (fetchedFullKey r) r.data] else ([] : List (ScanEntry α))) h1
          have h3 := List.Perm.append_left (scanFlushStep o iv buf r).1 h2
          refine h3.trans ?_
          exact hA1s.append_right _
        · rw [List.pairwise_append]
          refine ⟨?_, iO3, ?_⟩
          · rw [List.pairwise_append]
            refine ⟨hA3, ?_, ?_⟩
            · by_cases hc : intervalContains iv (fetchedFullKey r) = true <;> simp [hc]
            · intro a ha x hx
              rw [hehKey x hx]
              exact crossStrict a ha _ (Or.inl hKtake)
          · intro a ha x hx
            rcases List.mem_append.mp ha with h | h
            · exact crossStrict a h x.key (Or.inr (htailTake x hx))
            · rw [hehKey a h]
              exact hehLater x.key (htailTake x hx)
        · intro a ha e he
          rcases List.mem_append.mp ha with h | h
          · rcases List.mem_append.mp h with h2 | h2
            · exact crossStrict a h2 e.key (Or.inr (hbufTake e he))
            · rw [hehKey a h2]
              exact hehLater e.key (hbufTake e he)
          · exact iO4 a h e he
        · intro e he
          rcases iO7 e he with h | h
          · simp at h
          · rcases h with ⟨r', hr', htk⟩
            exact Or.inr ⟨r', List.mem_cons_of_mem r hr', htk⟩
      · -- long key: the row is pushed onto the buffer
        have hlong : maxIndexKeyPfxLen ≤ (fetchedFullKey r).length :=
          Nat.le_of_not_lt hshort
        have heq1 : (scanRows o iv buf (r :: rs)).1 =
            (scanFlushStep o iv buf r).1 ++
              (scanRows o iv ((scanFlushStep o iv buf r).2 ++
                [ScanEntry.mk (fetchedFullKey r) r.data]) rs).1 := by
          simp only [scanRows]
          rw [if_neg (by rw [hdel]; simp), if_neg hshort]
        have heq2 : (scanRows o iv buf (r :: rs)).2.1 =
            (scanRows o iv ((scanFlushStep o iv buf r).2 ++
              [ScanEntry.mk (fetchedFullKey r) r.data]) rs).2.1 := by
          simp only [scanRows]
          rw [if_neg (by rw [hdel]; simp), if_neg hshort]
        have heq3 : (scanRows o iv buf (r :: rs)).2.2 =
            (scanRows o iv ((scanFlushStep o iv buf r).2 ++
              [ScanEntry.mk (fetchedFullKey r) r.data]) rs).2.2 := by
          simp only [scanRows]
          rw [if_neg (by rw [hdel]; simp), if_neg hshort]
        have hbRTake : ∀ e ∈ (scanFlushStep o iv buf r).2 ++
            [ScanEntry.mk (fetchedFullKey r) r.data],
            e.key.take maxIndexKeyPfxLen = r.keyPfx := by
          intro e he
          rcases List.mem_append.mp he with h | h
          · exact hA6 e h
          · rw [List.mem_singleton] at h
            rw [h]
            exact hKtake
        have hbRLen : ∀ e ∈ (scanFlushStep o iv buf r).2 ++
            [ScanEntry.mk (fetchedFullKey r) r.data],
            maxIndexKeyPfxLen ≤ e.key.length := by
          intro e he
          rcases List.mem_append.mp he with h | h
          · exact hA7 e h
          · rw [List.mem_singleton] at h
            rw [h]
            exact hlong
        have hbRSame : ∀ e1 ∈ (scanFlushStep o iv buf r).2 ++
            [ScanEntry.mk (fetchedFullKey r) r.data],
            ∀ e2 ∈ (scanFlushStep o iv buf r).2 ++
              [ScanEntry.mk (fetchedFullKey r) r.data],
            e1.key.take maxIndexKeyPfxLen = e2.key.take maxIndexKeyPfxLen :=
          fun e1 h1 e2 h2 => (hbRTake e1 h1).trans (hbRTake e2 h2).symm
        have hbRRows : ∀ e ∈ (scanFlushStep o iv buf r).2 ++
            [ScanEntry.mk (fetchedFullKey r) r.data],
            ∀ x ∈ rs, ordBytesLt o x.keyPfx (e.key.take maxIndexKeyPfxLen) = false := by
          intro e he x hx
          rw [hbRTake e he]
          exact hr_rs x hx
        obtain ⟨iO1, iO2, iO3, iO4, iO5, iO6, iO7⟩ :=
          ih ((scanFlushStep o iv buf r).2 ++ [ScanEntry.mk (fetchedFullKey r) r.data])
            hlenrs hsort_rs hbRLen hbRSame hbRRows
        have htailTake : ∀ x ∈ (scanRows o iv ((scanFlushStep o iv buf r).2 ++
            [ScanEntry.mk (fetchedFullKey r) r.data]) rs).1,
            x.key.take maxIndexKeyPfxLen = r.keyPfx ∨
              ∃ r' ∈ rs, x.key.take maxIndexKeyPfxLen = r'.keyPfx := by
          intro x hx
          have hx1 : x ∈ (scanRows o iv ((scanFlushStep o iv buf r).2 ++
              [ScanEntry.mk (fetchedFullKey r) r.data]) rs).1 ++
              ((scanRows o iv ((scanFlushStep o iv buf r).2 ++
                [ScanEntry.mk (fetchedFullKey r) r.data]) rs).2.1.filter
                fun e => intervalContains iv e.key) := List.mem_append_left _ hx
          have hx2 := (iO2.mem_iff).mp hx1
          have hx3 := (List.mem_filter.mp hx2).1
          rcases List.mem_append.mp hx3 with hxa | hxa
          · exact Or.inl (hbRTake x hxa)
          · exact Or.inr (keptEntries_take hlenrs x hxa)
        have hbufTake : ∀ e ∈ (scanRows o iv ((scanFlushStep o iv buf r).2 ++
            [ScanEntry.mk (fetchedFullKey r) r.data]) rs).2.1,
            e.key.take maxIndexKeyPfxLen = r.keyPfx ∨
              ∃ r' ∈ rs, e.key.take maxIndexKeyPfxLen = r'.keyPfx := by
          intro e he
          rcases iO7 e he with h | h
          · exact Or.inl (hbRTake e h)
          · exact Or.inr h
        rw [heq1, heq2, heq3]
        refine ⟨iO1, ?_, ?_, ?_, iO5, iO6, ?_⟩
        · rw [keptEntries_cons_live rs hdel, List.filter_append, List.append_assoc]
          have h1 : (scanRows o iv ((scanFlushStep o iv buf r).2 ++
              [ScanEntry.mk (fetchedFullKey r) r.data]) rs).1 ++
              ((scanRows o iv ((scanFlushStep o iv buf r).2 ++
                [ScanEntry.mk (fetchedFullKey r) r.data]) rs).2.1.filter
                fun e => intervalContains iv e.key) |>.Perm
              (((scanFlushStep o iv buf r).2.filter fun e => intervalContains iv e.key) ++
                ((ScanEntry.mk (fetchedFullKey r) r.data :: keptEntries rs).filter
                  fun e => intervalContains iv e.key)) := by
            have h0 := iO2
            rwa [List.append_assoc, List.singleton_append, List.filter_append] at h0
          have h2 := List.Perm.append_left (scanFlushStep o iv buf r).1 h1
          refine h2.trans ?_
          rw [← List.append_assoc]
          exact hA1.append_right _
        · rw [List.pairwise_append]
          refine ⟨hA3, iO3, ?_⟩
          intro a ha x hx
          exact crossStrict a ha x.key (htailTake x hx)
        · intro a ha e he
          rcases List.mem_append.mp ha with h | h
          · exact crossStrict a h e.key (hbufTake e he)
          · exact iO4 a h e he
        · intro e he
          rcases iO7 e he with h | h
          · rcases List.mem_append.mp h with h2 | h2
            · exact Or.inl (hA5 e h2)
            · rw [List.mem_singleton] at h2
              refine Or.inr ⟨r, List.mem_cons_self r rs, ?_⟩
              rw [h2]
              exact hKtake
          · rcases h with ⟨r', hr', htk⟩
            exact Or.inr ⟨r', List.mem_cons_of_mem r hr', htk⟩

/-- C3: for every index scan, the entries emitted to the caller (the row
loop's output followed by the final buffer flush) are sorted by full logical
key in the requested scan order; they are exactly the non-deleted fetched
rows' full keys that the interval post-filter `interval.contains` accepts
(each paired with its row's payload); and every `assert!(result_buffer.is_empty())`
encountered at a directly-emitted short-key row holds — given that fetched
rows satisfy the stored length invariant on `key_prefix`/`key_suffix` and
arrive with `key_prefix` non-decreasing in the scan direction. -/
theorem C3_index_scan_order {α : Type} (o : Order) (iv : KeyInterval)
    (rows : List (IndexRowFetched α))
    (hlen : ∀ r ∈ rows, rowLenSpec r)
    (hsorted : rows.Pairwise fun a b => ordBytesLt o b.keyPfx a.keyPfx = false) :
    ((indexScanEmit o iv rows).Pairwise fun a b => ordBytesLt o b.key a.key = false) ∧
    (indexScanEmit o iv rows).Perm
      ((keptEntries rows).filter fun e => intervalContains iv e.key) ∧
    (scanRows o iv ([] : List (ScanEntry α)) rows).2.2 = true := by
  obtain ⟨O1, O2, O3, O4, O5, O6, O7⟩ :=
    scanRows_spec o iv rows [] hlen hsorted (by simp) (by simp) (by simp)
  refine ⟨?_, ?_, O1⟩
  · show ((scanRows o iv ([] : List (ScanEntry α)) rows).1 ++
      flushSortFilter o iv (scanRows o iv ([] : List (ScanEntry α)) rows).2.1).Pairwise
      fun a b => ordBytesLt o b.key a.key = false
    rw [List.pairwise_append]
    refine ⟨O3, flushSortFilter_sorted o iv _, ?_⟩
    intro a ha x hx
    exact O4 a ha x (flushSortFilter_subset o iv _ x hx)
  · show ((scanRows o iv ([] : List (ScanEntry α)) rows).1 ++
      flushSortFilter o iv (scanRows o iv ([] : List (ScanEntry α)) rows).2.1).Perm
      ((keptEntries rows).filter fun e => intervalContains iv e.key)
    have h1 := List.Perm.append_left (scanRows o iv ([] : List (ScanEntry α)) rows).1
      (flushSortFilter_perm o iv (scanRows o iv ([] : List (ScanEntry α)) rows).2.1)
    refine h1.trans ?_
    have h2 := O2
    rwa [List.nil_append] at h2

/-- Concrete instantiation of `C3_index_scan_order`: an ascending unbounded
scan over two live short-key rows. -/
theorem C3_index_scan_order_witness :
    ((indexScanEmit Order.asc ⟨[], IntervalEnd.unbounded⟩
        [⟨[1], none, [], false, (0 : Nat)⟩, ⟨[2], none, [], false, 1⟩]).Pairwise
      fun a b => ordBytesLt Order.asc b.key a.key = false) ∧
    (indexScanEmit Order.asc ⟨[], IntervalEnd.unbounded⟩
        [⟨[1], none, [], false, (0 : Nat)⟩, ⟨[2], none, [], false, 1⟩]).Perm
      ((keptEntries [(⟨[1], none, [], false, (0 : Nat)⟩ : IndexRowFetched Nat),
          ⟨[2], none, [], false, 1⟩]).filter
        fun e => intervalContains ⟨[], IntervalEnd.unbounded⟩ e.key) ∧
    (scanRows Order.asc ⟨[], IntervalEnd.unbounded⟩ ([] : List (ScanEntry Nat))
      [⟨[1], none, [], false, (0 : Nat)⟩, ⟨[2], none, [], false, 1⟩]).2.2 = true :=
  C3_index_scan_order Order.asc ⟨[], IntervalEnd.unbounded⟩ _
    (by
      intro r hr
      fin_cases hr <;> exact ⟨by decide, fun hc => absurd rfl hc⟩)
    (by decide)
